import Mathlib

/-!
# Verification of the polars group-by hashing engine

Shallow embedding of `polars-core/src/frame/groupby/hashing.rs`:
the sequential single-key grouping (`groupby`), the threaded numeric
grouping (`groupby_threaded_num2`), the threaded multi-key grouping
(`groupby_threaded_multiple_keys_flat`), the group-order finisher
(`finish_group_order_vecs`) and the multi-key hash-table population
helpers (`populate_multiple_key_hashmap`, `populate_multiple_key_hashmap2`,
`compare_df_rows`, `compare_keys`).

Machine integers (`u64`, `IdxSize`) are modelled as `Nat`; the only
machine-level operation the code performs on them is the bit mask
`hash & (n_partitions - 1)`, which never overflows.  Panics (failed
`assert!`s) are modelled by an `Option` result (`none` = abort), and the
one recoverable error channel by `Except`.  Hash tables are modelled as
association lists in insertion order; the order in which a `hashbrown`
table emits its entries is unspecified in Rust, and insertion order is one
admissible instantiation (none of the verified properties depend on the
unsorted emission order).
-/

namespace PolarsGroupby

/-- `IdxSize` of the source (row indices), modelled as `Nat`. -/
abbrev IdxSize := Nat

/-- `u64::is_power_of_two` (true iff exactly one bit is set). -/
def isPowerOfTwo (n : Nat) : Bool := n != 0 && (n &&& (n - 1)) == 0

/-- Modelled from the spec: the hash partitioner
`this_partition(h, thread_no, n_partitions)` of the external
`crate::hashing` module.  Per spec §4.1 a row belongs to worker `w` iff
`hash & (n_partitions - 1) == w`; `n_partitions` is required to be a power
of two, asserted, so a violation is an abort (`none`), not an error. -/
def this_partition (h thread_no n_partitions : Nat) : Option Bool :=
  if isPowerOfTwo n_partitions then
    some ((h &&& (n_partitions - 1)) == thread_no)
  else
    none

/-- The total core of `this_partition`, valid once the power-of-two
assertion has passed. -/
def thisPartitionT (h thread_no n_partitions : Nat) : Bool :=
  (h &&& (n_partitions - 1)) == thread_no

theorem this_partition_eq_some {n : Nat} (hp : isPowerOfTwo n = true)
    (h t : Nat) : this_partition h t n = some (thisPartitionT h t n) := by
  simp [this_partition, thisPartitionT, hp]

/-- Modelled from the spec: the grouping-result structure (`GroupsIdx`,
from `crate::frame::groupby`): per group a representative ("first") row
index and the list of member row indices, plus the `sorted` flag. -/
structure GroupsIdx where
  first : List IdxSize
  all : List (List IdxSize)
  sorted : Bool
deriving DecidableEq, Repr

/-- `GroupsIdx::from_iter` over `(first, all)` tuples (sorted flag false
by default, the caller sets it afterwards). -/
def GroupsIdx.ofPairs (items : List (IdxSize × List IdxSize)) : GroupsIdx :=
  ⟨items.map Prod.fst, items.map Prod.snd, false⟩

/-- `GroupsIdx::from(Vec<(Vec<IdxSize>, Vec<Vec<IdxSize>>)>)`: flatten the
per-worker `(first_vals, all_vals)` pairs by concatenation in worker
order (the unsorted finisher path). -/
def GroupsIdx.ofVecs (vecs : List (List IdxSize × List (List IdxSize))) : GroupsIdx :=
  ⟨(vecs.map Prod.fst).flatten, (vecs.map Prod.snd).flatten, false⟩

/-- The `GroupsProxy` wrapper only ever carries the `Idx` variant here. -/
abbrev GroupsProxy := GroupsIdx

/-- `finish_group_order_vecs(vecs, sorted)`.

* `sorted` with exactly one worker: the worker's accumulators become the
  result directly, marked sorted, with no sort step.
* `sorted` with several workers: each worker's `(first, all)` pairs are
  scattered (zipped) into one array at precomputed disjoint offsets —
  i.e. concatenated in worker order — after an `assert_eq!` that the two
  per-worker vectors have equal length (`none` models the failed assert);
  then one `sort_unstable_by_key(|g| g.0)` pass.  The unstable sort is
  modelled by insertion sort; in every reachable state the keys are
  distinct, where stable and unstable sorts agree.
* unsorted: plain concatenation (`GroupsIdx::from`). -/
def finish_group_order_vecs
    (vecs : List (List IdxSize × List (List IdxSize))) (sorted : Bool) :
    Option GroupsProxy :=
  if sorted then
    if h : vecs.length = 1 then
      let (first, all) := vecs.head (by cases vecs <;> simp_all)
      some ⟨first, all, true⟩
    else if vecs.all (fun v => v.1.length == v.2.length) then
      let items := (vecs.map (fun v => v.1.zip v.2)).flatten
      let items := items.insertionSort (fun a b => a.1 ≤ b.1)
      some ⟨items.map Prod.fst, items.map Prod.snd, true⟩
    else
      none
  else
    some (GroupsIdx.ofVecs vecs)

/-! ## Generic indexed folds

The accumulation loops of the source keep a running row counter (`cnt`)
plus a per-chunk `offset`; `foldWithIdx` is the single-chunk loop and
`foldChunks` the chunked loop with `offset += len` after each chunk.
`foldWithIdxM` / `foldChunksM` are the same loops when the body can abort
(a failed assertion inside `this_partition`). -/

def foldWithIdx (f : σ → Nat → α → σ) : σ → Nat → List α → σ
  | s, _, [] => s
  | s, i, a :: as => foldWithIdx f (f s i a) (i + 1) as

def foldChunks (f : σ → Nat → α → σ) : σ → Nat → List (List α) → σ
  | s, _, [] => s
  | s, off, c :: cs => foldChunks f (foldWithIdx f s off c) (off + c.length) cs

def foldWithIdxM (f : σ → Nat → α → Option σ) : σ → Nat → List α → Option σ
  | s, _, [] => some s
  | s, i, a :: as =>
    match f s i a with
    | none => none
    | some s' => foldWithIdxM f s' (i + 1) as

def foldChunksM (f : σ → Nat → α → Option σ) : σ → Nat → List (List α) → Option σ
  | s, _, [] => some s
  | s, off, c :: cs =>
    match foldWithIdxM f s off c with
    | none => none
    | some s' => foldChunksM f s' (off + c.length) cs

/-- `Option`-collecting map (the worker pool joins all workers; a panic in
any worker aborts the whole call). -/
def mapO (f : α → Option β) : List α → Option (List β)
  | [] => some []
  | a :: as =>
    match f a with
    | none => none
    | some b =>
      match mapO f as with
      | none => none
      | some bs => some (b :: bs)

/-! ## Sequential single-key grouping (`groupby`) -/

/-- One step of the sequential `groupby` loop: the `hash_tbl.entry(k)`
match.  Vacant: insert `(idx, vec![idx])`.  Occupied: push `idx` onto the
member list.  The table is an association list in insertion order. -/
def tblInsert [DecidableEq T] :
    List (T × IdxSize × List IdxSize) → T → IdxSize →
    List (T × IdxSize × List IdxSize)
  | [], k, idx => [(k, idx, [idx])]
  | (k', v) :: rest, k, idx =>
    if k' = k then (k', v.1, v.2 ++ [idx]) :: rest
    else (k', v) :: tblInsert rest k idx

/-- The hash table built by the sequential `groupby` accumulation loop. -/
def seqTbl [DecidableEq T] (a : List T) : List (T × IdxSize × List IdxSize) :=
  foldWithIdx (fun tbl idx k => tblInsert tbl k idx) [] 0 a

/-- `groupby(a, sorted)`: sequential single-key grouping. -/
def groupby [DecidableEq T] (a : List T) (sorted : Bool) : GroupsProxy :=
  let tbl := seqTbl a
  if sorted then
    let groups := (tbl.map Prod.snd).insertionSort (fun x y => x.1 ≤ y.1)
    ⟨groups.map Prod.fst, groups.map Prod.snd, true⟩
  else
    ⟨tbl.map (fun e => e.2.1), tbl.map (fun e => e.2.2), false⟩

/-! ## Threaded numeric grouping (`groupby_threaded_num2`) -/

/-- Association-list lookup (the raw-entry probe
`from_key_hashed_nocheck(hash, &k)`, whose hash is computed from `k` by
the table's own hasher, so it is exactly a lookup by key equality). -/
def alookup [DecidableEq T] (k : T) : List (T × α) → Option α
  | [] => none
  | (k', v) :: rest => if k = k' then some v else alookup k rest

/-- `all_vals.get_unchecked_mut(i).push(x)`. -/
def pushAt : List (List IdxSize) → Nat → IdxSize → List (List IdxSize)
  | [], _, _ => []
  | l :: ls, 0, x => (l ++ [x]) :: ls
  | l :: ls, i + 1, x => l :: pushAt ls i x

/-- Per-worker accumulation state of the threaded numeric path: the
key → offset hash table and the parallel `first_vals` / `all_vals`
arrays. -/
structure AccState (T : Type) where
  tbl : List (T × IdxSize)
  firsts : List IdxSize
  alls : List (List IdxSize)
deriving DecidableEq, Repr

def AccState.init : AccState T := ⟨[], [], []⟩

/-- One step of a threaded-numeric worker for the row `(i, k)`: skip the
row unless this worker owns its hash; otherwise vacant-insert a fresh
group (`offset_idx = first_vals.len()`, push `vec![i]`, push `i`) or push
`i` onto the existing group.  The ownership test `own k` stands for
`this_partition(k.as_u64(), thread_no, n_partitions)`, total here because
the callers establish the power-of-two assertion first. -/
def accStep [DecidableEq T] (own : T → Bool) (s : AccState T) (i : Nat)
    (k : T) : AccState T :=
  if own k then
    match alookup k s.tbl with
    | none =>
      { tbl := s.tbl ++ [(k, s.firsts.length)],
        firsts := s.firsts ++ [i],
        alls := s.alls ++ [[i]] }
    | some off => { s with alls := pushAt s.alls off i }
  else s

/-- A threaded-numeric worker: fold `accStep` over all chunks with a
running global offset. -/
def runAcc [DecidableEq T] (own : T → Bool) (keys : List (List T)) : AccState T :=
  foldChunks (accStep own) AccState.init 0 keys

/-- Single-list form of `runAcc` (the chunk offsets reconstruct exactly
the position in the flattened key list). -/
def runAccL [DecidableEq T] (own : T → Bool) (ks : List T) : AccState T :=
  foldWithIdx (accStep own) AccState.init 0 ks

/-- `groupby_threaded_num2(keys, n_partitions, sorted)`.  The leading
`assert!(n_partitions.is_power_of_two())` is the `none` branch; under the
assertion, every `this_partition` call inside the workers reduces to
`thisPartitionT`.  `asU64` models the `AsU64` key-to-`u64` conversion used
for partitioning. -/
def groupby_threaded_num2 [DecidableEq T] (asU64 : T → Nat)
    (keys : List (List T)) (n_partitions : Nat) (sorted : Bool) :
    Option GroupsProxy :=
  if isPowerOfTwo n_partitions then
    let v := (List.range n_partitions).map (fun thread_no =>
      let s := runAcc (fun k => thisPartitionT (asU64 k) thread_no n_partitions) keys
      (s.firsts, s.alls))
    finish_group_order_vecs v sorted
  else
    none

/-! ## Multi-key grouping -/

/-- The hashed index key of the multi-key table: a `(row index, hash)`
pair standing in for the composite key value (`IdxHash::new(idx, hash)`). -/
structure IdxHash where
  idx : IdxSize
  hash : Nat
deriving DecidableEq, Repr

/-- A key column, modelled as the list of its values; `get?` is the
element access used by the equality primitives (out-of-bounds access is
UB in the source — `unsafe` — and never reached in a grouping). -/
abbrev Column (K : Type) := List K

/-- A key `DataFrame`: its list of key columns. -/
abbrev DFrame (K : Type) := List (Column K)

/-- Modelled from the spec: the external per-column element-equality
primitive `s.equal_element(idx_a, idx_b, s)` (and equally the per-column
comparator object's `eq_element_unchecked`): whether the column holds
equal values at the two row positions. -/
def equalElement [DecidableEq K] (s : Column K) (a b : Nat) : Bool :=
  s.get? a == s.get? b

/-- `compare_df_rows(keys, idx_a, idx_b)`: iterate the key columns and
short-circuit on the first column whose elements at the two rows differ. -/
def compare_df_rows [DecidableEq K] (keys : DFrame K) (idx_a idx_b : Nat) : Bool :=
  match keys with
  | [] => true
  | s :: rest =>
    if !equalElement s idx_a idx_b then false
    else compare_df_rows rest idx_a idx_b

/-- `compare_keys(keys_cmp, idx_a, idx_b)`: the same short-circuiting AND
over the precomputed per-column comparator objects (a comparator object is
modelled by the column it compares). -/
def compare_keys [DecidableEq K] (keys_cmp : List (Column K)) (idx_a idx_b : Nat) : Bool :=
  match keys_cmp with
  | [] => true
  | cmp :: rest =>
    if !equalElement cmp idx_a idx_b then false
    else compare_keys rest idx_a idx_b

/-- `populate_multiple_key_hashmap(hash_tbl, idx, original_h, keys,
vacant_fn, occupied_fn)`: probe the table with the predicate
`idx_hash.hash == original_h && compare_df_rows(keys, idx_hash.idx, idx)`;
on a vacant probe insert `(IdxHash::new(idx, original_h), vacant_fn())`,
on an occupied probe apply `occupied_fn` to the stored value.  The
closures of the source mutate the worker's output buffers, so both are
modelled in an explicit state `σ`; the table is an association list, a
vacant insert appends. -/
def populate_multiple_key_hashmap [DecidableEq K] {V σ : Type}
    (hash_tbl : List (IdxHash × V)) (idx : IdxSize) (original_h : Nat)
    (keys : DFrame K) (vacant_fn : σ → V × σ) (occupied_fn : V → σ → V × σ)
    (s : σ) : List (IdxHash × V) × σ :=
  match hash_tbl with
  | [] =>
    let (v, s') := vacant_fn s
    ([(⟨idx, original_h⟩, v)], s')
  | (k, v) :: rest =>
    if k.hash == original_h && compare_df_rows keys k.idx idx then
      let (v', s') := occupied_fn v s
      ((k, v') :: rest, s')
    else
      let (rest', s') :=
        populate_multiple_key_hashmap rest idx original_h keys vacant_fn occupied_fn s
      ((k, v) :: rest', s')

/-- `populate_multiple_key_hashmap2`: identical except that the probe
predicate is `original_h == idx_hash.hash && compare_keys(keys_cmp,
idx_hash.idx, idx)` over the comparator objects. -/
def populate_multiple_key_hashmap2 [DecidableEq K] {V σ : Type}
    (hash_tbl : List (IdxHash × V)) (idx : IdxSize) (original_h : Nat)
    (keys_cmp : List (Column K)) (vacant_fn : σ → V × σ)
    (occupied_fn : V → σ → V × σ) (s : σ) : List (IdxHash × V) × σ :=
  match hash_tbl with
  | [] =>
    let (v, s') := vacant_fn s
    ([(⟨idx, original_h⟩, v)], s')
  | (k, v) :: rest =>
    if original_h == k.hash && compare_keys keys_cmp k.idx idx then
      let (v', s') := occupied_fn v s
      ((k, v') :: rest, s')
    else
      let (rest', s') :=
        populate_multiple_key_hashmap2 rest idx original_h keys_cmp vacant_fn occupied_fn s
      ((k, v) :: rest', s')

/-- Per-worker state of the threaded multi-key path: the
`IdxHash → offset` table plus the `first_vals` / `all_vals` buffers the
closures mutate through raw pointers. -/
structure MState (K : Type) where
  tbl : List (IdxHash × IdxSize)
  firsts : List IdxSize
  alls : List (List IdxSize)
deriving DecidableEq, Repr

def MState.init : MState K := ⟨[], [], []⟩

/-- The body of the multi-key worker loop for an owned row: the
`populate_multiple_key_hashmap2` call with the two buffer-mutating
closures (vacant: `offset_idx = first_vals.len()`, push `vec![row_idx]`
and `row_idx`, store `offset_idx`; occupied: push `row_idx` onto
`all_vals[offset_idx]`). -/
def flatUpd [DecidableEq K] (keys_cmp : List (Column K)) (s : MState K)
    (row_idx : IdxSize) (h : Nat) : MState K :=
  let (tbl', fa) := populate_multiple_key_hashmap2 s.tbl row_idx h keys_cmp
    (fun (st : List IdxSize × List (List IdxSize)) =>
      let offset_idx := st.1.length
      (offset_idx, (st.1 ++ [row_idx], st.2 ++ [[row_idx]])))
    (fun v st => (v, (st.1, pushAt st.2 v row_idx)))
    (s.firsts, s.alls)
  ⟨tbl', fa.1, fa.2⟩

/-- One multi-key worker step for the row `(row_idx, h)`: the
`this_partition` ownership filter (which may abort on a non-power-of-two
partition count), then `flatUpd` for owned rows. -/
def flatStepM [DecidableEq K] (keys_cmp : List (Column K))
    (thread_no n_partitions : Nat) (s : MState K) (row_idx : IdxSize)
    (h : Nat) : Option (MState K) :=
  match this_partition h thread_no n_partitions with
  | none => none
  | some owned => some (if owned then flatUpd keys_cmp s row_idx h else s)

/-- Total form of `flatStepM`, valid under the power-of-two assertion. -/
def flatStepT [DecidableEq K] (keys_cmp : List (Column K))
    (thread_no n_partitions : Nat) (s : MState K) (row_idx : IdxSize)
    (h : Nat) : MState K :=
  if thisPartitionT h thread_no n_partitions then
    flatUpd keys_cmp s row_idx h
  else s

/-- The composite key of row `i`: the tuple of per-column values (the
value the external row-hasher hashes and the row comparators compare). -/
def rowKey [DecidableEq K] (keys : DFrame K) (i : Nat) : List (Option K) :=
  keys.map (fun s => s.get? i)

/-- `df.height()`: the length of the first column (0 for no columns). -/
def dfHeight (keys : DFrame K) : Nat :=
  match keys with
  | [] => 0
  | s :: _ => s.length

/-- Structural compatibility of the key columns: all columns have the
frame's height. -/
def wellFormed (keys : DFrame K) : Bool :=
  keys.all (fun s => s.length == dfHeight keys)

/-- Modelled from the spec: `split_df` chunk sizes — `n` row-aligned
chunks, each of `height / n` rows with the remainder in the last chunk. -/
def splitSizes (height n : Nat) : List Nat :=
  if n = 0 then []
  else List.replicate (n - 1) (height / n) ++ [height - (n - 1) * (height / n)]

/-- Cut a list into consecutive chunks of the given sizes. -/
def chunksBySizes (l : List α) : List Nat → List (List α)
  | [] => []
  | sz :: rest => l.take sz :: chunksBySizes (l.drop sz) rest

/-- The recoverable error type of the one fallible entry point
(`PolarsResult`); the row-hasher fails on structurally incompatible key
columns. -/
inductive PolarsError where
  | shapeMismatch
deriving DecidableEq, Repr

/-- Modelled from the spec: `split_df` followed by
`df_rows_to_hashes_threaded_vertical(&dfs, None)` — one 64-bit hash per
row of the composite key, chunked row-aligned, global-row-order-correct,
consistent for equal rows (the hash is a function `hashRow` of the row's
composite value); fails with an explicit error when the key columns are
structurally incompatible. -/
def df_rows_to_hashes [DecidableEq K] (hashRow : List (Option K) → Nat)
    (keys : DFrame K) (n : Nat) : Except PolarsError (List (List Nat)) :=
  if wellFormed keys then
    let height := dfHeight keys
    .ok (chunksBySizes ((List.range height).map (fun i => hashRow (rowKey keys i)))
      (splitSizes height n))
  else
    .error .shapeMismatch

/-- `groupby_threaded_multiple_keys_flat(keys, n_partitions, sorted)`:
split, hash (the `?` on the row-hasher surfaces its error), build the
per-column comparator objects (`keys_cmp`, modelled by the columns
themselves), run one accumulation worker per partition over the full hash
sequence, finish.  The outer `Option` models an abort (a failed
`this_partition` or scatter assertion), the inner `Except` the recoverable
error result. -/
def groupby_threaded_multiple_keys_flat [DecidableEq K]
    (hashRow : List (Option K) → Nat) (keys : DFrame K)
    (n_partitions : Nat) (sorted : Bool) :
    Option (Except PolarsError GroupsProxy) :=
  match df_rows_to_hashes hashRow keys n_partitions with
  | .error e => some (.error e)
  | .ok hashes =>
    let keys_cmp := keys
    match mapO (fun thread_no =>
        match foldChunksM (flatStepM keys_cmp thread_no n_partitions)
            MState.init 0 hashes with
        | none => none
        | some s => some (s.firsts, s.alls))
        (List.range n_partitions) with
    | none => none
    | some v =>
      match finish_group_order_vecs v sorted with
      | none => none
      | some g => some (.ok g)

/-! ## Fold lemmas -/

theorem foldWithIdx_append (f : σ → Nat → α → σ) (s : σ) (i : Nat)
    (l₁ l₂ : List α) :
    foldWithIdx f s i (l₁ ++ l₂) =
      foldWithIdx f (foldWithIdx f s i l₁) (i + l₁.length) l₂ := by
  induction l₁ generalizing s i with
  | nil => simp [foldWithIdx]
  | cons a as ih =>
    simp only [List.cons_append, foldWithIdx, List.length_cons, List.append_eq]
    rw [ih, show i + 1 + as.length = i + (as.length + 1) from by omega]

theorem foldWithIdx_concat (f : σ → Nat → α → σ) (s : σ) (i : Nat)
    (l : List α) (x : α) :
    foldWithIdx f s i (l ++ [x]) = f (foldWithIdx f s i l) (i + l.length) x := by
  rw [foldWithIdx_append]; rfl

theorem foldChunks_eq_flatten (f : σ → Nat → α → σ) (s : σ) (off : Nat)
    (cs : List (List α)) :
    foldChunks f s off cs = foldWithIdx f s off cs.flatten := by
  induction cs generalizing s off with
  | nil => rfl
  | cons c cs ih => simp [foldChunks, ih, foldWithIdx_append]

theorem foldWithIdxM_of_total (fM : σ → Nat → α → Option σ)
    (fT : σ → Nat → α → σ) (hf : ∀ s i a, fM s i a = some (fT s i a))
    (s : σ) (i : Nat) (l : List α) :
    foldWithIdxM fM s i l = some (foldWithIdx fT s i l) := by
  induction l generalizing s i with
  | nil => rfl
  | cons a as ih => simp [foldWithIdxM, foldWithIdx, hf, ih]

theorem foldChunksM_of_total (fM : σ → Nat → α → Option σ)
    (fT : σ → Nat → α → σ) (hf : ∀ s i a, fM s i a = some (fT s i a))
    (s : σ) (off : Nat) (cs : List (List α)) :
    foldChunksM fM s off cs = some (foldChunks fT s off cs) := by
  induction cs generalizing s off with
  | nil => rfl
  | cons c cs ih =>
    simp [foldChunksM, foldChunks, foldWithIdxM_of_total fM fT hf, ih]

theorem mapO_of_total (f : α → Option β) (g : α → β) (l : List α)
    (hf : ∀ a ∈ l, f a = some (g a)) : mapO f l = some (l.map g) := by
  induction l with
  | nil => rfl
  | cons a as ih =>
    simp only [mapO, hf a (List.mem_cons_self a as)]
    rw [ih (fun a ha => hf a (List.mem_cons_of_mem _ ha))]
    rfl

/-! ## First-occurrence order, member index lists -/

section Keys

variable {κ : Type} [DecidableEq κ]

/-- The distinct keys of `ks` in first-occurrence order. -/
def dedup (ks : List κ) : List κ :=
  ks.foldl (fun acc k => if k ∈ acc then acc else acc ++ [k]) []

/-- The member index list of key `k`: the row indices (counting from `i`)
at which `k` occurs, in input order. -/
def idxsFrom (k : κ) : Nat → List κ → List Nat
  | _, [] => []
  | i, x :: xs =>
    if x = k then i :: idxsFrom k (i + 1) xs else idxsFrom k (i + 1) xs

def idxsOf (k : κ) (ks : List κ) : List Nat := idxsFrom k 0 ks

/-- The representative of key `k`: its first index in input order. -/
def firstOcc (k : κ) (ks : List κ) : Nat := (idxsOf k ks).headD 0

theorem dedup_foldl_mem (ks : List κ) (acc : List κ) (x : κ) :
    x ∈ ks.foldl (fun acc k => if k ∈ acc then acc else acc ++ [k]) acc ↔
      x ∈ acc ∨ x ∈ ks := by
  induction ks generalizing acc with
  | nil => simp
  | cons a as ih =>
    simp only [List.foldl_cons, ih, List.mem_cons]
    by_cases ha : a ∈ acc
    · simp only [if_pos ha]
      constructor
      · rintro (h | h) <;> tauto
      · rintro (h | rfl | h) <;> tauto
    · simp only [if_neg ha, List.mem_append, List.mem_singleton]
      tauto

theorem mem_dedup {ks : List κ} {x : κ} : x ∈ dedup ks ↔ x ∈ ks := by
  simp [dedup, dedup_foldl_mem]

theorem dedup_foldl_nodup (ks : List κ) (acc : List κ) (hacc : acc.Nodup) :
    (ks.foldl (fun acc k => if k ∈ acc then acc else acc ++ [k]) acc).Nodup := by
  induction ks generalizing acc with
  | nil => exact hacc
  | cons a as ih =>
    simp only [List.foldl_cons]
    by_cases ha : a ∈ acc
    · simpa [if_pos ha] using ih acc hacc
    · refine ih _ ?_
      simp [if_neg ha, List.nodup_append, hacc, ha]

theorem nodup_dedup (ks : List κ) : (dedup ks).Nodup :=
  dedup_foldl_nodup ks [] List.nodup_nil

theorem dedup_concat (ks : List κ) (x : κ) :
    dedup (ks ++ [x]) =
      if x ∈ dedup ks then dedup ks else dedup ks ++ [x] := by
  simp [dedup, List.foldl_append]

theorem idxsFrom_concat (k : κ) (i : Nat) (l : List κ) (x : κ) :
    idxsFrom k i (l ++ [x]) =
      idxsFrom k i l ++ (if x = k then [i + l.length] else []) := by
  induction l generalizing i with
  | nil => simp [idxsFrom]
  | cons a as ih =>
    have harith : i + 1 + as.length = i + (as.length + 1) := by omega
    by_cases hak : a = k <;>
      simp [idxsFrom, hak, ih, harith]

theorem mem_idxsFrom {k : κ} {l : List κ} {i j : Nat} :
    j ∈ idxsFrom k i l ↔ i ≤ j ∧ l.get? (j - i) = some k := by
  induction l generalizing i with
  | nil => simp [idxsFrom]
  | cons a as ih =>
    constructor
    · intro hmem
      by_cases hak : a = k
      · rw [idxsFrom, if_pos hak] at hmem
        rcases List.mem_cons.mp hmem with rfl | hmem'
        · simp [Nat.sub_self, hak]
        · obtain ⟨h1, h2⟩ := ih.mp hmem'
          refine ⟨by omega, ?_⟩
          have hji : j - i = (j - (i + 1)) + 1 := by omega
          rw [hji, List.get?_cons_succ]
          exact h2
      · rw [idxsFrom, if_neg hak] at hmem
        obtain ⟨h1, h2⟩ := ih.mp hmem
        refine ⟨by omega, ?_⟩
        have hji : j - i = (j - (i + 1)) + 1 := by omega
        rw [hji, List.get?_cons_succ]
        exact h2
    · rintro ⟨h1, h2⟩
      rcases Nat.eq_or_lt_of_le h1 with rfl | hlt
      · rw [Nat.sub_self, List.get?_cons_zero, Option.some.injEq] at h2
        rw [idxsFrom, if_pos h2]
        exact List.mem_cons_self _ _
      · have hji : j - i = (j - (i + 1)) + 1 := by omega
        rw [hji, List.get?_cons_succ] at h2
        have hmem' : j ∈ idxsFrom k (i + 1) as := ih.mpr ⟨by omega, h2⟩
        by_cases hak : a = k
        · rw [idxsFrom, if_pos hak]
          exact List.mem_cons_of_mem _ hmem'
        · rw [idxsFrom, if_neg hak]
          exact hmem'

theorem mem_idxsOf {k : κ} {ks : List κ} {j : Nat} :
    j ∈ idxsOf k ks ↔ ks.get? j = some k := by
  simp [idxsOf, mem_idxsFrom]

theorem idxsFrom_lower {k : κ} {l : List κ} {i j : Nat}
    (h : j ∈ idxsFrom k i l) : i ≤ j := (mem_idxsFrom.mp h).1

theorem idxsFrom_pairwise (k : κ) (i : Nat) (l : List κ) :
    (idxsFrom k i l).Pairwise (· < ·) := by
  induction l generalizing i with
  | nil => exact List.Pairwise.nil
  | cons a as ih =>
    by_cases hak : a = k
    · simp only [idxsFrom, if_pos hak]
      exact List.Pairwise.cons
        (fun j hj => lt_of_lt_of_le (Nat.lt_succ_self i) (idxsFrom_lower hj))
        (ih (i + 1))
    · simpa only [idxsFrom, if_neg hak] using ih (i + 1)

theorem idxsOf_pairwise (k : κ) (ks : List κ) :
    (idxsOf k ks).Pairwise (· < ·) := idxsFrom_pairwise k 0 ks

theorem idxsOf_nodup (k : κ) (ks : List κ) : (idxsOf k ks).Nodup :=
  (idxsOf_pairwise k ks).imp Nat.ne_of_lt

theorem idxsFrom_ne_nil_iff {k : κ} {l : List κ} {i : Nat} :
    idxsFrom k i l ≠ [] ↔ k ∈ l := by
  induction l generalizing i with
  | nil => simp [idxsFrom]
  | cons a as ih =>
    by_cases hak : a = k
    · subst hak
      simp [idxsFrom]
    · rw [idxsFrom, if_neg hak, ih]
      simp only [List.mem_cons]
      constructor
      · exact Or.inr
      · rintro (rfl | h)
        · exact absurd rfl hak
        · exact h

theorem idxsOf_eq_nil_iff {k : κ} {ks : List κ} :
    idxsOf k ks = [] ↔ k ∉ ks := by
  constructor
  · intro h hk
    exact (idxsFrom_ne_nil_iff.mpr hk) h
  · intro hk
    by_contra hne
    exact hk (idxsFrom_ne_nil_iff.mp hne)

theorem headD_concat_of_ne_nil {l : List Nat} (h : l ≠ []) (x d : Nat) :
    (l ++ [x]).headD d = l.headD d := by
  cases l with
  | nil => exact absurd rfl h
  | cons a as => rfl

theorem pairwise_lt_headD_le {l : List Nat} (h : l.Pairwise (· < ·))
    {j : Nat} (hj : j ∈ l) : l.headD 0 ≤ j := by
  cases l with
  | nil => simp at hj
  | cons a as =>
    rcases List.mem_cons.mp hj with rfl | hj'
    · exact le_refl _
    · exact le_of_lt ((List.pairwise_cons.mp h).1 j hj')

theorem firstOcc_mem {k : κ} {ks : List κ} (h : k ∈ ks) :
    firstOcc k ks ∈ idxsOf k ks := by
  have hne : idxsOf k ks ≠ [] := by
    rw [Ne, idxsOf_eq_nil_iff]; exact fun hk => hk h
  cases hl : idxsOf k ks with
  | nil => exact absurd hl hne
  | cons a as => simp [firstOcc, hl]

theorem get_firstOcc {k : κ} {ks : List κ} (h : k ∈ ks) :
    ks.get? (firstOcc k ks) = some k :=
  mem_idxsOf.mp (firstOcc_mem h)

theorem firstOcc_lt_length {k : κ} {ks : List κ} (h : k ∈ ks) :
    firstOcc k ks < ks.length := by
  by_contra hge
  push_neg at hge
  have hg := get_firstOcc h
  rw [List.get?_eq_none.mpr hge] at hg
  exact Option.noConfusion hg

/-- Position of the first occurrence of `x`. -/
def posOf (x : κ) : List κ → Option Nat
  | [] => none
  | y :: ys => if x = y then some 0 else (posOf x ys).map (· + 1)

theorem posOf_eq_none_iff {x : κ} {l : List κ} : posOf x l = none ↔ x ∉ l := by
  induction l with
  | nil => simp [posOf]
  | cons y ys ih =>
    by_cases hxy : x = y
    · subst hxy
      simp [posOf]
    · simp only [posOf, if_neg hxy, List.mem_cons]
      cases h : posOf x ys with
      | none => simp [ih.mp h, hxy]
      | some p =>
        simp only [Option.map_some', h]
        constructor
        · intro hc
          exact Option.noConfusion hc
        · intro hc
          have : x ∈ ys := by
            by_contra hx
            rw [ih.mpr hx] at h
            exact Option.noConfusion h
          exact absurd (Or.inr this) hc

/-- The table built by appending `(k, j)` entries in key order, `j`
counting from the given base. -/
def tblOfFrom (j : Nat) : List κ → List (κ × Nat)
  | [] => []
  | k :: D => (k, j) :: tblOfFrom (j + 1) D

def tblOf (D : List κ) : List (κ × Nat) := tblOfFrom 0 D

theorem tblOfFrom_concat (j : Nat) (D : List κ) (x : κ) :
    tblOfFrom j (D ++ [x]) = tblOfFrom j D ++ [(x, j + D.length)] := by
  induction D generalizing j with
  | nil => simp [tblOfFrom]
  | cons k D ih =>
    simp only [List.cons_append, tblOfFrom, List.append_eq, List.length_cons]
    rw [ih, show j + 1 + D.length = j + (D.length + 1) from by omega]

theorem alookup_tblOfFrom (x : κ) (j : Nat) (D : List κ) :
    alookup x (tblOfFrom j D) = (posOf x D).map (· + j) := by
  induction D generalizing j with
  | nil => simp [tblOfFrom, alookup, posOf]
  | cons y ys ih =>
    by_cases hxy : x = y
    · simp [tblOfFrom, alookup, posOf, hxy]
    · simp only [tblOfFrom, alookup, if_neg hxy, posOf, ih, Option.map_map]
      cases posOf x ys with
      | none => rfl
      | some p =>
        simp only [Option.map_some', Function.comp_apply, Option.some.injEq]
        omega

theorem tblOf_concat (D : List κ) (x : κ) :
    tblOf (D ++ [x]) = tblOf D ++ [(x, D.length)] := by
  rw [tblOf, tblOf, tblOfFrom_concat, Nat.zero_add]

theorem alookup_tblOf (x : κ) (D : List κ) :
    alookup x (tblOf D) = posOf x D := by
  rw [tblOf, alookup_tblOfFrom]
  cases posOf x D <;> simp

theorem posOf_get {x : κ} {l : List κ} {p : Nat} (h : posOf x l = some p) :
    l.get? p = some x := by
  induction l generalizing p with
  | nil => exact Option.noConfusion h
  | cons y ys ih =>
    by_cases hxy : x = y
    · rw [posOf, if_pos hxy] at h
      simp only [Option.some.injEq] at h
      subst h
      simp [hxy]
    · rw [posOf, if_neg hxy] at h
      cases hq : posOf x ys with
      | none =>
        rw [hq] at h
        exact Option.noConfusion h
      | some q =>
        rw [hq] at h
        simp only [Option.map_some', Option.some.injEq] at h
        subst h
        simpa using ih hq

theorem pushAt_map {x : κ} {D : List κ} {p : Nat} (f : κ → List Nat)
    (hp : posOf x D = some p) (hnd : D.Nodup) (v : Nat) :
    pushAt (D.map f) p v =
      D.map (fun k => if k = x then f k ++ [v] else f k) := by
  induction D generalizing p with
  | nil => exact Option.noConfusion hp
  | cons y ys ih =>
    rcases List.nodup_cons.mp hnd with ⟨hy, hys⟩
    by_cases hxy : x = y
    · rw [posOf, if_pos hxy] at hp
      simp only [Option.some.injEq] at hp
      subst hp
      subst hxy
      simp only [List.map_cons, pushAt, if_pos trivial]
      congr 1
      refine (List.map_congr_left ?_).symm
      intro a ha
      rw [if_neg]
      intro hax
      exact hy (hax ▸ ha)
    · rw [posOf, if_neg hxy] at hp
      cases hq : posOf x ys with
      | none =>
        rw [hq] at hp
        exact Option.noConfusion hp
      | some q =>
        rw [hq] at hp
        simp only [Option.map_some', Option.some.injEq] at hp
        subst hp
        simp only [List.map_cons, pushAt, List.cons.injEq]
        refine ⟨by rw [if_neg (fun h => hxy h.symm)], ih hq hys⟩

theorem posOf_eq_some_of_mem {x : κ} {l : List κ} (h : x ∈ l) :
    ∃ p, posOf x l = some p := by
  cases hp : posOf x l with
  | none => exact absurd (posOf_eq_none_iff.mp hp) (fun hc => hc h)
  | some p => exact ⟨p, rfl⟩

/-! ## Characterization of one accumulation worker -/

/-- The keys a worker with ownership predicate `own` accumulates, in
first-occurrence order. -/
def canonD (own : κ → Bool) (ks : List κ) : List κ := (dedup ks).filter own

theorem nodup_canonD (own : κ → Bool) (ks : List κ) : (canonD own ks).Nodup :=
  (nodup_dedup ks).filter own

theorem mem_canonD {own : κ → Bool} {ks : List κ} {x : κ} :
    x ∈ canonD own ks ↔ x ∈ ks ∧ own x = true := by
  simp [canonD, List.mem_filter, mem_dedup]

theorem canonD_concat_not_own {own : κ → Bool} {ks : List κ} {x : κ}
    (hox : own x = false) : canonD own (ks ++ [x]) = canonD own ks := by
  rw [canonD, dedup_concat]
  by_cases hx : x ∈ dedup ks
  · rw [if_pos hx]; rfl
  · rw [if_neg hx, List.filter_append]
    simp [canonD, List.filter, hox]

theorem canonD_concat_mem {own : κ → Bool} {ks : List κ} {x : κ}
    (hx : x ∈ ks) : canonD own (ks ++ [x]) = canonD own ks := by
  rw [canonD, dedup_concat, if_pos (mem_dedup.mpr hx)]; rfl

theorem canonD_concat_new {own : κ → Bool} {ks : List κ} {x : κ}
    (hox : own x = true) (hx : x ∉ ks) :
    canonD own (ks ++ [x]) = canonD own ks ++ [x] := by
  rw [canonD, dedup_concat, if_neg (fun h => hx (mem_dedup.mp h)),
    List.filter_append]
  simp [canonD, List.filter, hox]

theorem idxsOf_concat_ne {k x : κ} {ks : List κ} (h : x ≠ k) :
    idxsOf k (ks ++ [x]) = idxsOf k ks := by
  rw [idxsOf, idxsFrom_concat, if_neg h, List.append_nil]; rfl

theorem idxsOf_concat_self (k : κ) (ks : List κ) :
    idxsOf k (ks ++ [k]) = idxsOf k ks ++ [ks.length] := by
  rw [idxsOf, idxsFrom_concat, if_pos rfl, Nat.zero_add]; rfl

theorem firstOcc_concat_ne {k x : κ} {ks : List κ} (h : x ≠ k) :
    firstOcc k (ks ++ [x]) = firstOcc k ks := by
  rw [firstOcc, idxsOf_concat_ne h]; rfl

theorem firstOcc_concat_mem {k : κ} {ks : List κ} (h : k ∈ ks) :
    firstOcc k (ks ++ [k]) = firstOcc k ks := by
  rw [firstOcc, idxsOf_concat_self, headD_concat_of_ne_nil]
  · rfl
  · rw [Ne, idxsOf_eq_nil_iff]
    exact fun hc => hc h

theorem firstOcc_concat_new {k : κ} {ks : List κ} (h : k ∉ ks) :
    firstOcc k (ks ++ [k]) = ks.length := by
  rw [firstOcc, idxsOf_concat_self, idxsOf_eq_nil_iff.mpr h]; rfl

/-- Closed form of one worker's accumulation state: the table holds the
worker's keys in first-occurrence order mapped to their accumulator
offsets, `first_vals` their representatives, `all_vals` their member
index lists. -/
theorem runAccL_eq (own : κ → Bool) (ks : List κ) :
    runAccL own ks =
      { tbl := tblOf (canonD own ks),
        firsts := (canonD own ks).map (fun k => firstOcc k ks),
        alls := (canonD own ks).map (fun k => idxsOf k ks) } := by
  induction ks using List.reverseRecOn with
  | nil => rfl
  | append_singleton l x ih =>
    have hstep : runAccL own (l ++ [x]) =
        accStep own (runAccL own l) (0 + l.length) x :=
      foldWithIdx_concat _ _ _ _ _
    rw [hstep, ih, Nat.zero_add]
    by_cases hox : own x = true
    · by_cases hxl : x ∈ l
      · -- occupied: `x` already has a group in this worker
        have hxD : x ∈ canonD own l := mem_canonD.mpr ⟨hxl, hox⟩
        obtain ⟨p, hp⟩ := posOf_eq_some_of_mem hxD
        have hlook : alookup x (tblOf (canonD own l)) = some p := by
          rw [alookup_tblOf, hp]
        rw [accStep, if_pos hox]
        simp only [hlook, canonD_concat_mem hxl, AccState.mk.injEq]
        refine ⟨trivial, ?_, ?_⟩
        · refine List.map_congr_left ?_
          intro k hk
          by_cases hkx : k = x
          · subst hkx
            exact (firstOcc_concat_mem hxl).symm
          · exact (firstOcc_concat_ne (fun h => hkx h.symm)).symm
        · rw [pushAt_map _ hp (nodup_canonD own l)]
          refine List.map_congr_left ?_
          intro k hk
          by_cases hkx : k = x
          · subst hkx
            rw [if_pos rfl]
            exact (idxsOf_concat_self k l).symm
          · rw [if_neg hkx]
            exact (idxsOf_concat_ne (fun h => hkx h.symm)).symm
      · -- vacant: a fresh group is appended
        have hxD : x ∉ canonD own l := fun h => hxl (mem_canonD.mp h).1
        have hlook : alookup x (tblOf (canonD own l)) = none := by
          rw [alookup_tblOf, posOf_eq_none_iff.mpr hxD]
        rw [accStep, if_pos hox]
        simp only [hlook, canonD_concat_new hox hxl, AccState.mk.injEq]
        refine ⟨?_, ?_, ?_⟩
        · rw [List.length_map, tblOf_concat]
        · rw [List.map_append]
          congr 1
          · refine List.map_congr_left ?_
            intro k hk
            have hkx : x ≠ k := fun h => hxl (h ▸ (mem_canonD.mp hk).1)
            exact (firstOcc_concat_ne hkx).symm
          · simp [firstOcc_concat_new hxl]
        · rw [List.map_append]
          congr 1
          · refine List.map_congr_left ?_
            intro k hk
            have hkx : x ≠ k := fun h => hxl (h ▸ (mem_canonD.mp hk).1)
            exact (idxsOf_concat_ne hkx).symm
          · simp [idxsOf_concat_self, idxsOf_eq_nil_iff.mpr hxl]
    · -- the worker does not own this row: state unchanged
      have hox' : own x = false := by simpa using hox
      rw [accStep, if_neg (by simp [hox'])]
      simp only [canonD_concat_not_own hox', AccState.mk.injEq]
      have hne : ∀ k ∈ canonD own l, x ≠ k := by
        intro k hk h
        rw [h, (mem_canonD.mp hk).2] at hox'
        exact Bool.noConfusion hox'
      refine ⟨trivial, ?_, ?_⟩
      · refine List.map_congr_left ?_
        intro k hk
        exact (firstOcc_concat_ne (hne k hk)).symm
      · refine List.map_congr_left ?_
        intro k hk
        exact (idxsOf_concat_ne (hne k hk)).symm

/-! ## Characterization of the sequential groupby table -/

theorem tblInsert_map_not_mem {D : List κ} {x : κ} (hx : x ∉ D)
    (f : κ → IdxSize × List IdxSize) (idx : IdxSize) :
    tblInsert (D.map (fun k => (k, f k))) x idx =
      D.map (fun k => (k, f k)) ++ [(x, idx, [idx])] := by
  induction D with
  | nil => rfl
  | cons y ys ih =>
    have hxy : y ≠ x := fun h => hx (h ▸ List.mem_cons_self y ys)
    simp only [List.map_cons, tblInsert, if_neg hxy, List.cons_append,
      List.cons.injEq, true_and]
    exact ih (fun h => hx (List.mem_cons_of_mem _ h))

theorem tblInsert_map_mem {D : List κ} {x : κ} (hnd : D.Nodup) (hx : x ∈ D)
    (f : κ → IdxSize × List IdxSize) (idx : IdxSize) :
    tblInsert (D.map (fun k => (k, f k))) x idx =
      D.map (fun k =>
        (k, (f k).1, if k = x then (f k).2 ++ [idx] else (f k).2)) := by
  induction D with
  | nil => simp at hx
  | cons y ys ih =>
    rcases List.nodup_cons.mp hnd with ⟨hy, hys⟩
    by_cases hxy : y = x
    · have hxys : x ∉ ys := fun h => hy (hxy.symm ▸ h)
      simp only [List.map_cons, tblInsert, if_pos hxy]
      congr 1
      refine (List.map_congr_left ?_).symm
      intro a ha
      have hax : ¬a = x := fun h => hxys (h ▸ ha)
      rw [if_neg hax]
    · have hx' : x ∈ ys := by
        rcases List.mem_cons.mp hx with rfl | h
        · exact absurd rfl hxy
        · exact h
      simp only [List.map_cons, tblInsert, if_neg hxy]
      congr 1
      exact ih hys hx'

/-- Closed form of the sequential `groupby` hash table: one entry per
distinct key in first-occurrence order, holding the key's representative
and its member index list. -/
theorem seqTbl_eq (ks : List κ) :
    seqTbl ks = (dedup ks).map (fun k => (k, firstOcc k ks, idxsOf k ks)) := by
  induction ks using List.reverseRecOn with
  | nil => rfl
  | append_singleton l x ih =>
    have hstep : seqTbl (l ++ [x]) = tblInsert (seqTbl l) x (0 + l.length) :=
      foldWithIdx_concat _ _ _ _ _
    rw [hstep, ih, Nat.zero_add]
    by_cases hxl : x ∈ l
    · rw [tblInsert_map_mem (nodup_dedup l) (mem_dedup.mpr hxl),
        dedup_concat, if_pos (mem_dedup.mpr hxl)]
      refine List.map_congr_left ?_
      intro k hk
      by_cases hkx : k = x
      · subst hkx
        rw [if_pos rfl, firstOcc_concat_mem hxl, idxsOf_concat_self]
      · rw [if_neg hkx, firstOcc_concat_ne (fun h => hkx h.symm),
          idxsOf_concat_ne (fun h => hkx h.symm)]
    · rw [tblInsert_map_not_mem (fun h => hxl (mem_dedup.mp h)),
        dedup_concat, if_neg (fun h => hxl (mem_dedup.mp h)), List.map_append]
      congr 1
      · refine List.map_congr_left ?_
        intro k hk
        have hkx : x ≠ k := fun h => hxl (h ▸ mem_dedup.mp hk)
        rw [firstOcc_concat_ne hkx, idxsOf_concat_ne hkx]
      · simp [firstOcc_concat_new hxl, idxsOf_concat_self,
          idxsOf_eq_nil_iff.mpr hxl]

/-! ## Partition and coverage permutations -/

theorem count_eq_ite_of_nodup {l : List κ} (h : l.Nodup) (a : κ) :
    l.count a = if a ∈ l then 1 else 0 := by
  by_cases ha : a ∈ l
  · rw [if_pos ha]
    exact List.count_eq_one_of_mem h ha
  · rw [if_neg ha]
    exact List.count_eq_zero.mpr ha

theorem count_idxsOf (k : κ) (ks : List κ) (j : Nat) :
    (idxsOf k ks).count j = if ks.get? j = some k then 1 else 0 := by
  rw [count_eq_ite_of_nodup (idxsOf_nodup k ks)]
  by_cases h : ks.get? j = some k
  · rw [if_pos (mem_idxsOf.mpr h), if_pos h]
  · rw [if_neg (fun hm => h (mem_idxsOf.mp hm)), if_neg h]

theorem count_range_ite (N j : Nat) :
    (List.range N).count j = if j < N then 1 else 0 := by
  rw [count_eq_ite_of_nodup (List.nodup_range N)]
  by_cases h : j < N
  · rw [if_pos (List.mem_range.mpr h), if_pos h]
  · rw [if_neg (fun hm => h (List.mem_range.mp hm)), if_neg h]

theorem count_canonD (own : κ → Bool) (ks : List κ) (x : κ) :
    (canonD own ks).count x =
      if own x then (dedup ks).count x else 0 := by
  by_cases hox : own x = true
  · rw [if_pos hox, canonD, List.count_filter hox]
  · rw [if_neg (by simpa using hox), canonD, List.count_eq_zero.mpr]
    intro hm
    exact hox (List.mem_filter.mp hm).2

theorem sum_map_range_eq_single (n t₀ c : Nat) (h : t₀ < n) :
    ((List.range n).map (fun t => if t₀ = t then c else 0)).sum = c := by
  induction n with
  | zero => omega
  | succ m ih =>
    rw [List.range_succ, List.map_append, List.sum_append]
    by_cases h0 : t₀ = m
    · subst h0
      rw [List.sum_eq_zero, List.map_singleton, if_pos rfl]
      · simp
      · intro y hy
        obtain ⟨t, ht, rfl⟩ := List.mem_map.mp hy
        rw [if_neg]
        intro hc
        subst hc
        exact absurd (List.mem_range.mp ht) (lt_irrefl _)
    · rw [ih (by omega), List.map_singleton, if_neg h0]
      simp

theorem mask_lt {n : Nat} (hn : 1 ≤ n) (h : Nat) : h &&& (n - 1) < n :=
  lt_of_le_of_lt Nat.and_le_right (by omega)

theorem thisPartitionT_iff {h t n : Nat} :
    thisPartitionT h t n = true ↔ h &&& (n - 1) = t := by
  simp [thisPartitionT]

/-- The per-worker key lists partition the distinct keys: flattening them
over all workers recovers `dedup ks` up to permutation. -/
theorem canonD_partition_perm (f : κ → Nat) {n : Nat} (hn : 1 ≤ n)
    (ks : List κ) :
    (((List.range n).map
        (fun t => canonD (fun k => thisPartitionT (f k) t n) ks)).flatten).Perm
      (dedup ks) := by
  rw [List.perm_iff_count]
  intro x
  rw [List.count_flatten, List.map_map]
  have hcong : ∀ t ∈ List.range n,
      (List.count x ∘ fun t => canonD (fun k => thisPartitionT (f k) t n) ks) t =
        (fun t => if f x &&& (n - 1) = t then (dedup ks).count x else 0) t := by
    intro t _
    simp only [Function.comp_apply]
    rw [count_canonD]
    by_cases hp : thisPartitionT (f x) t n = true
    · rw [if_pos hp, if_pos (thisPartitionT_iff.mp hp)]
    · rw [if_neg hp, if_neg (fun h => hp (thisPartitionT_iff.mpr h))]
  rw [List.map_congr_left hcong,
    sum_map_range_eq_single n _ _ (mask_lt hn (f x))]

/-- Mapping any per-key group constructor over the per-worker key lists
and flattening yields the same multiset as mapping it over all distinct
keys. -/
theorem flatten_map_canonD_perm {β : Type} (f : κ → Nat) {n : Nat}
    (hn : 1 ≤ n) (ks : List κ) (g : κ → β) :
    (((List.range n).map
        (fun t => (canonD (fun k => thisPartitionT (f k) t n) ks).map g)).flatten).Perm
      ((dedup ks).map g) := by
  have h1 : (List.range n).map
      (fun t => (canonD (fun k => thisPartitionT (f k) t n) ks).map g) =
      ((List.range n).map
        (fun t => canonD (fun k => thisPartitionT (f k) t n) ks)).map
        (List.map g) := by
    rw [List.map_map]
    rfl
  rw [h1, ← List.map_flatten]
  exact (canonD_partition_perm f hn ks).map g

theorem sum_map_indicator_of_nodup {D : List κ} (hnd : D.Nodup) {v : κ}
    (hv : v ∈ D) :
    (D.map (fun k => if v = k then 1 else 0)).sum = 1 := by
  induction D with
  | nil => simp at hv
  | cons y ys ih =>
    rcases List.nodup_cons.mp hnd with ⟨hy, hys⟩
    rw [List.map_cons, List.sum_cons]
    rcases List.mem_cons.mp hv with rfl | hv'
    · rw [if_pos rfl]
      have hz : (List.map (fun k => if v = k then 1 else 0) ys).sum = 0 := by
        refine List.sum_eq_zero ?_
        intro x hx
        obtain ⟨k, hk, rfl⟩ := List.mem_map.mp hx
        have hvk : ¬v = k := fun h => hy (h ▸ hk)
        rw [if_neg hvk]
      rw [hz]
    · have hvy : ¬v = y := fun h => hy (h ▸ hv')
      rw [if_neg hvy, ih hys hv', Nat.zero_add]

/-- Coverage: the member index lists of all distinct keys together
enumerate every row index exactly once. -/
theorem flatten_idxsOf_dedup_perm (ks : List κ) :
    (((dedup ks).map (fun k => idxsOf k ks)).flatten).Perm
      (List.range ks.length) := by
  rw [List.perm_iff_count]
  intro j
  rw [List.count_flatten, List.map_map, count_range_ite]
  cases hj : ks.get? j with
  | none =>
    have hge : ks.length ≤ j := List.get?_eq_none.mp hj
    rw [if_neg (by omega)]
    refine List.sum_eq_zero ?_
    intro y hy
    obtain ⟨k, hk, rfl⟩ := List.mem_map.mp hy
    simp only [Function.comp_apply]
    rw [count_idxsOf, if_neg]
    intro hc
    rw [hj] at hc
    exact Option.noConfusion hc
  | some v =>
    have hlt : j < ks.length := by
      by_contra hge
      rw [List.get?_eq_none.mpr (by omega)] at hj
      exact Option.noConfusion hj
    rw [if_pos hlt]
    have hcong : ∀ k ∈ dedup ks,
        (List.count j ∘ fun k => idxsOf k ks) k =
          (fun k => if v = k then 1 else 0) k := by
      intro k _
      simp only [Function.comp_apply]
      rw [count_idxsOf, hj]
      by_cases hvk : v = k
      · rw [if_pos (by rw [hvk]), if_pos hvk]
      · rw [if_neg (by simpa using hvk), if_neg hvk]
    rw [List.map_congr_left hcong]
    exact sum_map_indicator_of_nodup (nodup_dedup ks)
      (mem_dedup.mpr (List.get?_mem hj))

/-- The representatives of the distinct keys are strictly increasing in
first-occurrence order. -/
theorem pairwise_firstOcc_dedup (ks : List κ) :
    (dedup ks).Pairwise (fun a b => firstOcc a ks < firstOcc b ks) := by
  induction ks using List.reverseRecOn with
  | nil => exact List.Pairwise.nil
  | append_singleton l x ih =>
    by_cases hxl : x ∈ l
    · rw [dedup_concat, if_pos (mem_dedup.mpr hxl)]
      refine List.Pairwise.imp_of_mem ?_ ih
      intro a b ha hb hab
      have hfa : firstOcc a (l ++ [x]) = firstOcc a l := by
        by_cases hax : x = a
        · rw [← hax]
          exact firstOcc_concat_mem hxl
        · exact firstOcc_concat_ne hax
      have hfb : firstOcc b (l ++ [x]) = firstOcc b l := by
        by_cases hbx : x = b
        · rw [← hbx]
          exact firstOcc_concat_mem hxl
        · exact firstOcc_concat_ne hbx
      rw [hfa, hfb]
      exact hab
    · rw [dedup_concat, if_neg (fun h => hxl (mem_dedup.mp h))]
      rw [List.pairwise_append]
      refine ⟨?_, List.pairwise_singleton _ _, ?_⟩
      · refine List.Pairwise.imp_of_mem ?_ ih
        intro a b ha hb hab
        have hax : x ≠ a := fun h => hxl (h ▸ mem_dedup.mp ha)
        have hbx : x ≠ b := fun h => hxl (h ▸ mem_dedup.mp hb)
        rw [firstOcc_concat_ne hax, firstOcc_concat_ne hbx]
        exact hab
      · intro a ha b hb
        rw [List.mem_singleton] at hb
        rw [hb]
        have hax : x ≠ a := fun h => hxl (h ▸ mem_dedup.mp ha)
        rw [firstOcc_concat_ne hax, firstOcc_concat_new hxl]
        exact firstOcc_lt_length (mem_dedup.mp ha)

/-- A representative determines its key: two keys of `ks` with equal
representatives are equal. -/
theorem firstOcc_inj {ks : List κ} {a b : κ} (ha : a ∈ ks) (hb : b ∈ ks)
    (h : firstOcc a ks = firstOcc b ks) : a = b := by
  have h1 := get_firstOcc ha
  have h2 := get_firstOcc hb
  rw [h] at h1
  rw [h1] at h2
  exact (Option.some.injEq _ _ ▸ h2 :)

end Keys

/-! ## Sorting lemmas -/

/-- The comparator of the finisher's `sort_unstable_by_key(|g| g.0)`. -/
abbrev keyLE (a b : IdxSize × List IdxSize) : Prop := a.1 ≤ b.1

theorem sorted_insertionSort_keyLE (l : List (IdxSize × List IdxSize)) :
    List.Sorted keyLE (l.insertionSort (fun a b => a.1 ≤ b.1)) := by
  have htot : IsTotal (IdxSize × List IdxSize) keyLE :=
    ⟨fun a b => Nat.le_total a.1 b.1⟩
  have htrans : IsTrans (IdxSize × List IdxSize) keyLE :=
    ⟨fun _ _ _ hab hbc => le_trans hab hbc⟩
  exact @List.sorted_insertionSort _ keyLE (fun a b => Nat.decLe a.1 b.1)
    htot htrans l

theorem insertionSort_keyLE_perm (l : List (IdxSize × List IdxSize)) :
    (l.insertionSort (fun a b => a.1 ≤ b.1)).Perm l :=
  List.perm_insertionSort _ l

/-- Strictly key-sorted lists that are permutations of each other are
equal. -/
theorem eq_of_perm_of_pairwise_key_lt {α : Type} (key : α → Nat) :
    ∀ {l₁ l₂ : List α}, l₁.Perm l₂ →
      l₁.Pairwise (fun a b => key a < key b) →
      l₂.Pairwise (fun a b => key a < key b) → l₁ = l₂ := by
  intro l₁
  induction l₁ with
  | nil =>
    intro l₂ hp _ _
    exact (hp.nil_eq).symm ▸ rfl
  | cons a t₁ ih =>
    intro l₂ hp h₁ h₂
    cases l₂ with
    | nil => exact absurd hp.symm.nil_eq (by simp)
    | cons b t₂ =>
      have ha₂ : a ∈ b :: t₂ := hp.mem_iff.mp (List.mem_cons_self a t₁)
      have hab : a = b := by
        rcases List.mem_cons.mp ha₂ with h | h
        · exact h
        · have hb₁ : b ∈ a :: t₁ := hp.mem_iff.mpr (List.mem_cons_self b t₂)
          rcases List.mem_cons.mp hb₁ with h' | h'
          · exact h'.symm
          · have hlt1 : key a < key b := (List.pairwise_cons.mp h₁).1 b h'
            have hlt2 : key b < key a := (List.pairwise_cons.mp h₂).1 a h
            omega
      subst hab
      have htp : t₁.Perm t₂ := hp.cons_inv
      rw [ih htp (List.pairwise_cons.mp h₁).2 (List.pairwise_cons.mp h₂).2]

/-- A key-sorted list whose keys are distinct is strictly key-sorted. -/
theorem pairwise_key_lt_of_sorted_nodup {α : Type} (key : α → Nat)
    {l : List α} (hs : l.Pairwise (fun a b => key a ≤ key b))
    (hn : (l.map key).Nodup) :
    l.Pairwise (fun a b => key a < key b) := by
  have h2 : l.Pairwise (fun a b => key a ≠ key b) := List.pairwise_map.mp hn
  exact (hs.and h2).imp (fun h => lt_of_le_of_ne h.1 h.2)

theorem zip_map_fst_snd {α β : Type} (l : List (α × β)) :
    (l.map Prod.fst).zip (l.map Prod.snd) = l := by
  induction l with
  | nil => rfl
  | cons a t ih => simp [List.zip_cons_cons, ih]

theorem insertionSort_of_pairwise_key_lt
    {l : List (IdxSize × List IdxSize)}
    (h : l.Pairwise (fun a b => a.1 < b.1)) :
    l.insertionSort (fun a b => a.1 ≤ b.1) = l :=
  List.Sorted.insertionSort_eq (h.imp le_of_lt)

/-! ## Finisher equations -/

theorem finish_unsorted (vecs : List (List IdxSize × List (List IdxSize))) :
    finish_group_order_vecs vecs false = some (GroupsIdx.ofVecs vecs) := rfl

theorem finish_sorted_single (first : List IdxSize)
    (all : List (List IdxSize)) :
    finish_group_order_vecs [(first, all)] true = some ⟨first, all, true⟩ := rfl

theorem finish_sorted_multi (vecs : List (List IdxSize × List (List IdxSize)))
    (h1 : vecs.length ≠ 1)
    (hall : vecs.all (fun v => v.1.length == v.2.length) = true) :
    finish_group_order_vecs vecs true =
      some ⟨(((vecs.map (fun v => v.1.zip v.2)).flatten).insertionSort
              (fun a b => a.1 ≤ b.1)).map Prod.fst,
            (((vecs.map (fun v => v.1.zip v.2)).flatten).insertionSort
              (fun a b => a.1 ≤ b.1)).map Prod.snd,
            true⟩ := by
  rw [finish_group_order_vecs, if_pos rfl, dif_neg h1, if_pos hall]

/-! ## Canonical worker output vectors -/

section Canon

variable {κ : Type} [DecidableEq κ]

/-- The `(first_vals, all_vals)` pairs produced by `n` accumulation
workers partitioned by the low bits of `f`, in closed form. -/
def numVecs (f : κ → Nat) (n : Nat) (ks : List κ) :
    List (List IdxSize × List (List IdxSize)) :=
  (List.range n).map (fun t =>
    ((canonD (fun k => thisPartitionT (f k) t n) ks).map (fun k => firstOcc k ks),
     (canonD (fun k => thisPartitionT (f k) t n) ks).map (fun k => idxsOf k ks)))

/-- One canonical group accumulator per key. -/
def groupPair (ks : List κ) (k : κ) : IdxSize × List IdxSize :=
  (firstOcc k ks, idxsOf k ks)

theorem numVecs_lens (f : κ → Nat) (n : Nat) (ks : List κ) :
    ∀ v ∈ numVecs f n ks, v.1.length = v.2.length := by
  intro v hv
  obtain ⟨t, _, rfl⟩ := List.mem_map.mp hv
  simp [List.length_map]

theorem numVecs_zip_flatten_perm (f : κ → Nat) {n : Nat} (hn : 1 ≤ n)
    (ks : List κ) :
    (((numVecs f n ks).map (fun v => v.1.zip v.2)).flatten).Perm
      ((dedup ks).map (groupPair ks)) := by
  have hz : (numVecs f n ks).map (fun v => v.1.zip v.2) =
      (List.range n).map (fun t =>
        (canonD (fun k => thisPartitionT (f k) t n) ks).map (groupPair ks)) := by
    rw [numVecs, List.map_map]
    refine List.map_congr_left ?_
    intro t _
    simp only [Function.comp_apply]
    rw [List.zip_map']
    rfl
  rw [hz]
  exact flatten_map_canonD_perm f hn ks (groupPair ks)

/-- The representatives of all distinct keys are pairwise distinct. -/
theorem nodup_firstOcc_dedup (ks : List κ) :
    ((dedup ks).map (fun k => firstOcc k ks)).Nodup := by
  refine List.Nodup.map_on ?_ (nodup_dedup ks)
  intro a ha b hb hfab
  exact firstOcc_inj (mem_dedup.mp ha) (mem_dedup.mp hb) hfab

/-- The canonical group list, ordered by first occurrence, is strictly
increasing in representatives. -/
theorem pairwise_groupPair_dedup (ks : List κ) :
    ((dedup ks).map (groupPair ks)).Pairwise (fun a b => a.1 < b.1) := by
  rw [List.pairwise_map]
  exact pairwise_firstOcc_dedup ks

/-- The full behaviour of the finisher on canonical worker vectors: it
returns a grouping result built from a pair list `items` that is a
permutation of the canonical group list, strictly rep-sorted when sorted
mode was requested. -/
theorem finish_numVecs_spec (f : κ → Nat) {n : Nat} (hn : 1 ≤ n)
    (ks : List κ) (sorted : Bool) :
    ∃ items : List (IdxSize × List IdxSize),
      finish_group_order_vecs (numVecs f n ks) sorted =
          some ⟨items.map Prod.fst, items.map Prod.snd, sorted⟩ ∧
      items.Perm ((dedup ks).map (groupPair ks)) ∧
      (sorted = true → items.Pairwise (fun a b => a.1 < b.1)) := by
  cases sorted with
  | false =>
    refine ⟨((numVecs f n ks).map (fun v => v.1.zip v.2)).flatten,
      ?_, numVecs_zip_flatten_perm f hn ks, by simp⟩
    rw [finish_unsorted]
    congr 1
    rw [GroupsIdx.ofVecs]
    have hfst : (((numVecs f n ks).map (fun v => v.1.zip v.2)).flatten).map
        Prod.fst = ((numVecs f n ks).map Prod.fst).flatten := by
      rw [List.map_flatten, List.map_map]
      congr 1
      refine List.map_congr_left ?_
      intro v hv
      simp only [Function.comp_apply]
      exact List.map_fst_zip _ _ (le_of_eq (numVecs_lens f n ks v hv))
    have hsnd : (((numVecs f n ks).map (fun v => v.1.zip v.2)).flatten).map
        Prod.snd = ((numVecs f n ks).map Prod.snd).flatten := by
      rw [List.map_flatten, List.map_map]
      congr 1
      refine List.map_congr_left ?_
      intro v hv
      simp only [Function.comp_apply]
      exact List.map_snd_zip _ _ (ge_of_eq (numVecs_lens f n ks v hv))
    rw [hfst, hsnd]
  | true =>
    by_cases h1 : (numVecs f n ks).length = 1
    · -- exactly one worker: its accumulators are returned directly
      have hn1 : n = 1 := by
        have := h1
        rw [numVecs, List.length_map, List.length_range] at this
        exact this
      subst hn1
      have hrange : List.range 1 = [0] := rfl
      refine ⟨(canonD (fun k => thisPartitionT (f k) 0 1) ks).map
        (groupPair ks), ?_, ?_, ?_⟩
      · rw [numVecs, hrange, List.map_singleton, finish_sorted_single]
        congr 2
        · rw [List.map_map]
          rfl
        · rw [List.map_map]
          rfl
      · have hall : ∀ k, thisPartitionT (f k) 0 1 = true := by
          intro k
          simp [thisPartitionT]
        have hceq : canonD (fun k => thisPartitionT (f k) 0 1) ks = dedup ks := by
          rw [canonD]
          refine List.filter_eq_self.mpr ?_
          intro k _
          exact hall k
        rw [hceq]
      · intro _
        rw [List.pairwise_map]
        exact (pairwise_firstOcc_dedup ks).filter _
    · -- several workers: scatter then one global sort pass
      have hall : (numVecs f n ks).all
          (fun v => v.1.length == v.2.length) = true := by
        rw [List.all_eq_true]
        intro v hv
        exact beq_iff_eq.mpr (numVecs_lens f n ks v hv)
      set items0 := ((numVecs f n ks).map (fun v => v.1.zip v.2)).flatten with hitems0
      refine ⟨items0.insertionSort (fun a b => a.1 ≤ b.1),
        finish_sorted_multi _ h1 hall, ?_, ?_⟩
      · exact (insertionSort_keyLE_perm items0).trans
          (numVecs_zip_flatten_perm f hn ks)
      · intro _
        refine pairwise_key_lt_of_sorted_nodup Prod.fst
          (sorted_insertionSort_keyLE items0) ?_
        have hperm : ((items0.insertionSort (fun a b => a.1 ≤ b.1)).map
            Prod.fst).Perm ((dedup ks).map (fun k => firstOcc k ks)) := by
          have h1p := (insertionSort_keyLE_perm items0).map Prod.fst
          have h2p := (numVecs_zip_flatten_perm f hn ks).map Prod.fst
          rw [List.map_map] at h2p
          exact h1p.trans h2p
        exact hperm.symm.nodup (nodup_firstOcc_dedup ks)

end Canon

theorem one_le_of_isPowerOfTwo {n : Nat} (h : isPowerOfTwo n = true) :
    1 ≤ n := by
  cases n with
  | zero => simp [isPowerOfTwo] at h
  | succ m => omega

/-! ## Closed forms of the grouping operations -/

/-- Sequential `groupby` in closed form: one group per distinct key in
first-occurrence order — which is exactly ascending-representative order,
so sorted and unsorted mode emit the same groups in the same order. -/
theorem groupby_eq [DecidableEq T] (ks : List T) (sorted : Bool) :
    groupby ks sorted =
      ⟨(dedup ks).map (fun k => firstOcc k ks),
       (dedup ks).map (fun k => idxsOf k ks), sorted⟩ := by
  cases sorted with
  | false =>
    simp only [groupby, Bool.false_eq_true, if_false]
    rw [seqTbl_eq, List.map_map, List.map_map]
    rfl
  | true =>
    simp only [groupby, if_true]
    rw [seqTbl_eq, List.map_map]
    have hmap : (Prod.snd ∘ fun k => (k, firstOcc k ks, idxsOf k ks)) =
        groupPair ks := rfl
    rw [hmap, insertionSort_of_pairwise_key_lt (pairwise_groupPair_dedup ks),
      List.map_map, List.map_map]
    rfl

/-- `groupby_threaded_num2` under its power-of-two assertion reduces to
the finisher applied to the canonical worker vectors over the flattened
key sequence. -/
theorem groupby_threaded_num2_eq [DecidableEq T] (asU64 : T → Nat)
    (keys : List (List T)) {n : Nat} (hp : isPowerOfTwo n = true)
    (sorted : Bool) :
    groupby_threaded_num2 asU64 keys n sorted =
      finish_group_order_vecs (numVecs asU64 n keys.flatten) sorted := by
  rw [groupby_threaded_num2, if_pos hp]
  dsimp only
  congr 1
  rw [numVecs]
  refine List.map_congr_left ?_
  intro t _
  rw [runAcc, foldChunks_eq_flatten]
  have hL : foldWithIdx (accStep fun k => thisPartitionT (asU64 k) t n)
      AccState.init 0 keys.flatten =
      runAccL (fun k => thisPartitionT (asU64 k) t n) keys.flatten := rfl
  rw [hL, runAccL_eq]

/-! ## Multi-key comparators and the population routine -/

section MultiKey

variable {K : Type} [DecidableEq K]

theorem compare_keys_iff (cols : List (Column K)) (a b : Nat) :
    compare_keys cols a b = true ↔ rowKey cols a = rowKey cols b := by
  induction cols with
  | nil => simp [compare_keys, rowKey]
  | cons s rest ih =>
    rw [compare_keys]
    by_cases he : equalElement s a b = true
    · have hse : s.get? a = s.get? b := by simpa [equalElement] using he
      rw [if_neg (by simp [he]), ih]
      constructor
      · intro h2
        have h2' : rest.map (fun c => c.get? a) = rest.map (fun c => c.get? b) := h2
        show (s :: rest).map (fun c => c.get? a) = (s :: rest).map (fun c => c.get? b)
        rw [List.map_cons, List.map_cons, hse, h2']
      · intro h2
        have h2' : s.get? a :: rest.map (fun c => c.get? a) =
            s.get? b :: rest.map (fun c => c.get? b) := h2
        injection h2' with hh ht
    · rw [if_pos (by simpa using he)]
      constructor
      · intro hc
        exact Bool.noConfusion hc
      · intro hc
        simp only [rowKey, List.map_cons, List.cons.injEq] at hc
        exact absurd (by simpa [equalElement] using hc.1) he

theorem compare_df_rows_eq_compare_keys (cols : List (Column K)) (a b : Nat) :
    compare_df_rows cols a b = compare_keys cols a b := by
  induction cols with
  | nil => rfl
  | cons s rest ih => rw [compare_df_rows, compare_keys, ih]

theorem compare_df_rows_iff (cols : List (Column K)) (a b : Nat) :
    compare_df_rows cols a b = true ↔ rowKey cols a = rowKey cols b := by
  rw [compare_df_rows_eq_compare_keys, compare_keys_iff]

/-- The probe predicate of `populate_multiple_key_hashmap2`. -/
def probe2 (cmp : List (Column K)) (idx : IdxSize) (h : Nat)
    (e : IdxHash) : Bool :=
  h == e.hash && compare_keys cmp e.idx idx

/-- The probe predicate of `populate_multiple_key_hashmap`. -/
def probe1 (keys : DFrame K) (idx : IdxSize) (h : Nat)
    (e : IdxHash) : Bool :=
  e.hash == h && compare_df_rows keys e.idx idx

theorem probe1_eq_probe2 (keys : DFrame K) (idx : IdxSize) (h : Nat)
    (e : IdxHash) : probe1 keys idx h e = probe2 keys idx h e := by
  rw [probe1, probe2, compare_df_rows_eq_compare_keys]
  cases hbe : h == e.hash with
  | true => rw [beq_iff_eq.mp hbe, beq_self_eq_true]
  | false =>
    have : (e.hash == h) = false := by
      rw [beq_eq_false_iff_ne] at hbe ⊢
      exact fun hc => hbe hc.symm
    rw [this]

/-- Vacant case of the population routine: when no stored entry matches
both by hash and by row equality, a new `(idx, hash)` entry is inserted
with the vacant producer's value, and the occupied updater is never run
(the final auxiliary state is the vacant producer's alone). -/
theorem populate2_vacant {V σ : Type} (cmp : List (Column K))
    (idx : IdxSize) (h : Nat) (vf : σ → V × σ) (of : V → σ → V × σ) (st : σ)
    {tbl : List (IdxHash × V)}
    (hnone : ∀ e ∈ tbl, probe2 cmp idx h e.1 = false) :
    populate_multiple_key_hashmap2 tbl idx h cmp vf of st =
      (tbl ++ [(⟨idx, h⟩, (vf st).1)], (vf st).2) := by
  induction tbl with
  | nil => rfl
  | cons e rest ih =>
    have he : probe2 cmp idx h e.1 = false := hnone e (List.mem_cons_self e rest)
    rw [populate_multiple_key_hashmap2]
    rw [probe2] at he
    rw [if_neg (by rw [he]; exact Bool.noConfusion)]
    rw [ih (fun x hx => hnone x (List.mem_cons_of_mem _ hx))]
    rfl

/-- Occupied case of the population routine: when the table splits as
`t1 ++ e :: t2` with the first matching entry `e`, only `e`'s value is
replaced by the occupied updater's result, the key set is unchanged, and
the vacant producer is never run. -/
theorem populate2_occupied {V σ : Type} (cmp : List (Column K))
    (idx : IdxSize) (h : Nat) (vf : σ → V × σ) (of : V → σ → V × σ) (st : σ)
    (t1 t2 : List (IdxHash × V)) (e : IdxHash × V)
    (h1 : ∀ x ∈ t1, probe2 cmp idx h x.1 = false)
    (he : probe2 cmp idx h e.1 = true) :
    populate_multiple_key_hashmap2 (t1 ++ e :: t2) idx h cmp vf of st =
      (t1 ++ (e.1, (of e.2 st).1) :: t2, (of e.2 st).2) := by
  induction t1 with
  | nil =>
    cases e with
    | mk k v =>
      rw [List.nil_append, populate_multiple_key_hashmap2]
      rw [probe2] at he
      rw [if_pos he]
      rfl
  | cons x t1' ih =>
    have hx : probe2 cmp idx h x.1 = false := h1 x (List.mem_cons_self x t1')
    rw [List.cons_append, populate_multiple_key_hashmap2]
    cases x with
    | mk k v =>
      rw [probe2] at hx
      rw [if_neg (by rw [hx]; exact Bool.noConfusion)]
      rw [ih (fun y hy => h1 y (List.mem_cons_of_mem _ hy))]
      rfl

/-- The same two cases for `populate_multiple_key_hashmap` (the direct
`compare_df_rows` variant). -/
theorem populate1_vacant {V σ : Type} (keys : DFrame K)
    (idx : IdxSize) (h : Nat) (vf : σ → V × σ) (of : V → σ → V × σ) (st : σ)
    {tbl : List (IdxHash × V)}
    (hnone : ∀ e ∈ tbl, probe1 keys idx h e.1 = false) :
    populate_multiple_key_hashmap tbl idx h keys vf of st =
      (tbl ++ [(⟨idx, h⟩, (vf st).1)], (vf st).2) := by
  induction tbl with
  | nil => rfl
  | cons e rest ih =>
    have he : probe1 keys idx h e.1 = false := hnone e (List.mem_cons_self e rest)
    rw [populate_multiple_key_hashmap]
    rw [probe1] at he
    rw [if_neg (by rw [he]; exact Bool.noConfusion)]
    rw [ih (fun x hx => hnone x (List.mem_cons_of_mem _ hx))]
    rfl

theorem populate1_occupied {V σ : Type} (keys : DFrame K)
    (idx : IdxSize) (h : Nat) (vf : σ → V × σ) (of : V → σ → V × σ) (st : σ)
    (t1 t2 : List (IdxHash × V)) (e : IdxHash × V)
    (h1 : ∀ x ∈ t1, probe1 keys idx h x.1 = false)
    (he : probe1 keys idx h e.1 = true) :
    populate_multiple_key_hashmap (t1 ++ e :: t2) idx h keys vf of st =
      (t1 ++ (e.1, (of e.2 st).1) :: t2, (of e.2 st).2) := by
  induction t1 with
  | nil =>
    cases e with
    | mk k v =>
      rw [List.nil_append, populate_multiple_key_hashmap]
      rw [probe1] at he
      rw [if_pos he]
      rfl
  | cons x t1' ih =>
    have hx : probe1 keys idx h x.1 = false := h1 x (List.mem_cons_self x t1')
    rw [List.cons_append, populate_multiple_key_hashmap]
    cases x with
    | mk k v =>
      rw [probe1] at hx
      rw [if_neg (by rw [hx]; exact Bool.noConfusion)]
      rw [ih (fun y hy => h1 y (List.mem_cons_of_mem _ hy))]
      rfl

/-- The two cases are exhaustive: a table either has no matching entry or
splits at its first matching entry. -/
theorem probe_cases {V : Type} (p : IdxHash → Bool) :
    ∀ tbl : List (IdxHash × V),
      (∀ e ∈ tbl, p e.1 = false) ∨
      ∃ t1 e t2, tbl = t1 ++ e :: t2 ∧ (∀ x ∈ t1, p x.1 = false) ∧
        p e.1 = true := by
  intro tbl
  induction tbl with
  | nil => exact Or.inl (by simp)
  | cons x rest ih =>
    by_cases hx : p x.1 = true
    · exact Or.inr ⟨[], x, rest, rfl, by simp, hx⟩
    · rcases ih with hnone | ⟨t1, e, t2, rfl, h1, he⟩
      · refine Or.inl ?_
        intro e hemem
        rcases List.mem_cons.mp hemem with rfl | hmem
        · simpa using hx
        · exact hnone e hmem
      · refine Or.inr ⟨x :: t1, e, t2, rfl, ?_, he⟩
        intro y hy
        rcases List.mem_cons.mp hy with rfl | hmem
        · simpa using hx
        · exact h1 y hmem

/-! ## Simulation of the multi-key worker by an accumulation worker -/

/-- The composite keys of all rows, in row order. -/
def rowKeys (keys : DFrame K) : List (List (Option K)) :=
  (List.range (dfHeight keys)).map (fun i => rowKey keys i)

theorem alookup_eq_none_iff {T α : Type} [DecidableEq T] {k : T}
    {l : List (T × α)} :
    alookup k l = none ↔ ∀ e ∈ l, k ≠ e.1 := by
  induction l with
  | nil => simp [alookup]
  | cons e rest ih =>
    rw [alookup]
    by_cases hke : k = e.1
    · cases e with
      | mk k' v =>
        simp only at hke
        rw [if_pos hke]
        constructor
        · intro hc
          exact Option.noConfusion hc
        · intro hc
          exact absurd hke (hc (k', v) (List.mem_cons_self _ _))
    · cases e with
      | mk k' v =>
        simp only at hke
        rw [if_neg hke, ih]
        constructor
        · intro hall x hx
          rcases List.mem_cons.mp hx with rfl | hmem
          · exact hke
          · exact hall x hmem
        · intro hall x hx
          exact hall x (List.mem_cons_of_mem _ hx)

theorem alookup_append_cons {T α : Type} [DecidableEq T] {k : T}
    (t1 : List (T × α)) (e : T × α) (t2 : List (T × α))
    (h1 : ∀ x ∈ t1, k ≠ x.1) (he : k = e.1) :
    alookup k (t1 ++ e :: t2) = some e.2 := by
  induction t1 with
  | nil =>
    cases e with
    | mk k' v =>
      rw [List.nil_append, alookup, if_pos he]
  | cons x t1' ih =>
    cases x with
    | mk k' v =>
      rw [List.cons_append, alookup,
        if_neg (h1 (k', v) (List.mem_cons_self _ _)),
        ih (fun y hy => h1 y (List.mem_cons_of_mem _ hy))]

/-- The simulation relation between a multi-key worker state and an
accumulation worker state over the derived composite-key sequence. -/
def MRel (hashRow : List (Option K) → Nat) (cols : DFrame K)
    (s : MState K) (a : AccState (List (Option K))) : Prop :=
  (∀ e ∈ s.tbl, e.1.hash = hashRow (rowKey cols e.1.idx)) ∧
  a.tbl = s.tbl.map (fun e => (rowKey cols e.1.idx, e.2)) ∧
  a.firsts = s.firsts ∧ a.alls = s.alls

theorem probe2_iff_rowEq (hashRow : List (Option K) → Nat)
    (cols : DFrame K) (i : Nat) {e : IdxHash}
    (hh : e.hash = hashRow (rowKey cols e.idx)) :
    probe2 cols i (hashRow (rowKey cols i)) e = true ↔
      rowKey cols e.idx = rowKey cols i := by
  rw [probe2, Bool.and_eq_true]
  constructor
  · intro hc
    exact (compare_keys_iff cols e.idx i).mp hc.2
  · intro hre
    refine ⟨?_, (compare_keys_iff cols e.idx i).mpr hre⟩
    rw [hh, hre]
    exact beq_self_eq_true _

/-- One `flatUpd` call (an owned row) preserves the simulation, matching
the vacant/occupied branches of `accStep` over the row's composite key. -/
theorem flatUpd_sim (hashRow : List (Option K) → Nat) (cols : DFrame K)
    {s : MState K} {a : AccState (List (Option K))}
    (hrel : MRel hashRow cols s a) (i : Nat) :
    MRel hashRow cols (flatUpd cols s i (hashRow (rowKey cols i)))
      (match alookup (rowKey cols i) a.tbl with
       | none =>
         { tbl := a.tbl ++ [(rowKey cols i, a.firsts.length)],
           firsts := a.firsts ++ [i], alls := a.alls ++ [[i]] }
       | some off => { a with alls := pushAt a.alls off i }) := by
  obtain ⟨hh, htbl, hf, hal⟩ := hrel
  rcases probe_cases (probe2 cols i (hashRow (rowKey cols i))) s.tbl with
    hnone | ⟨t1, e, t2, hsplit, h1, he⟩
  · -- vacant everywhere
    have hlook : alookup (rowKey cols i) a.tbl = none := by
      rw [alookup_eq_none_iff]
      intro x hx
      rw [htbl] at hx
      obtain ⟨y, hy, rfl⟩ := List.mem_map.mp hx
      intro hc
      have : probe2 cols i (hashRow (rowKey cols i)) y.1 = true :=
        (probe2_iff_rowEq hashRow cols i (hh y hy)).mpr hc.symm
      rw [hnone y hy] at this
      exact Bool.noConfusion this
    rw [hlook]
    rw [flatUpd, populate2_vacant _ _ _ _ _ _ hnone]
    refine ⟨?_, ?_, ?_, ?_⟩
    · intro e hemem
      rcases List.mem_append.mp hemem with hmem | hmem
      · exact hh e hmem
      · rw [List.mem_singleton] at hmem
        subst hmem
        rfl
    · simp only [List.map_append, List.map_singleton, htbl, hf]
    · simp only [hf]
    · simp only [hal]
  · -- occupied at the first matching entry
    have hre : rowKey cols e.1.idx = rowKey cols i :=
      (probe2_iff_rowEq hashRow cols i
        (hh e (hsplit ▸ List.mem_append.mpr
          (Or.inr (List.mem_cons_self e t2))))).mp he
    have hlook : alookup (rowKey cols i) a.tbl = some e.2 := by
      rw [htbl, hsplit, List.map_append, List.map_cons]
      refine alookup_append_cons _ _ _ ?_ hre.symm
      intro x hx
      obtain ⟨y, hy, rfl⟩ := List.mem_map.mp hx
      intro hc
      have : probe2 cols i (hashRow (rowKey cols i)) y.1 = true :=
        (probe2_iff_rowEq hashRow cols i
          (hh y (hsplit ▸ List.mem_append.mpr (Or.inl hy)))).mpr hc.symm
      rw [h1 y hy] at this
      exact Bool.noConfusion this
    rw [hlook]
    rw [flatUpd, hsplit, populate2_occupied _ _ _ _ _ _ _ _ _ h1 he]
    refine ⟨?_, ?_, ?_, ?_⟩
    · intro x hx
      refine hh x ?_
      rw [hsplit]
      rcases List.mem_append.mp hx with hmem | hmem
      · exact List.mem_append.mpr (Or.inl hmem)
      · rcases List.mem_cons.mp hmem with rfl | hmem'
        · exact List.mem_append.mpr (Or.inr (List.mem_cons_self e t2))
        · exact List.mem_append.mpr (Or.inr (List.mem_cons_of_mem _ hmem'))
    · rw [htbl, hsplit]
    · exact hf
    · simp only [hal]

/-- One full multi-key worker step preserves the simulation against one
accumulation step over the derived key. -/
theorem flatStepT_sim (hashRow : List (Option K) → Nat) (cols : DFrame K)
    (t n : Nat) {s : MState K} {a : AccState (List (Option K))}
    (hrel : MRel hashRow cols s a) (i : Nat) :
    MRel hashRow cols (flatStepT cols t n s i (hashRow (rowKey cols i)))
      (accStep (fun k => thisPartitionT (hashRow k) t n) a i
        (rowKey cols i)) := by
  rw [flatStepT, accStep]
  by_cases hown : thisPartitionT (hashRow (rowKey cols i)) t n = true
  · rw [if_pos hown, if_pos hown]
    have := flatUpd_sim hashRow cols hrel i
    obtain ⟨hh, htbl, hf, hal⟩ := hrel
    cases hlook : alookup (rowKey cols i) a.tbl with
    | none =>
      rw [hlook] at this
      convert this using 2
    | some off =>
      rw [hlook] at this
      convert this using 2
  · rw [if_neg hown, if_neg hown]
    exact hrel

theorem foldWithIdx_map {σ α β : Type} (f : σ → Nat → β → σ) (g : α → β)
    (s : σ) (i : Nat) (l : List α) :
    foldWithIdx f s i (l.map g) =
      foldWithIdx (fun s j a => f s j (g a)) s i l := by
  induction l generalizing s i with
  | nil => rfl
  | cons a as ih => simp [foldWithIdx, ih]

/-- Simulation over a fold along `List.range H`, where the running index
equals the element. -/
theorem foldWithIdx_range_sim {σ₁ σ₂ : Type} (R : σ₁ → σ₂ → Prop)
    (f1 : σ₁ → Nat → Nat → σ₁) (f2 : σ₂ → Nat → Nat → σ₂)
    (hstep : ∀ s a i, R s a → R (f1 s i i) (f2 a i i)) (H : Nat)
    {s : σ₁} {a : σ₂} (h0 : R s a) :
    R (foldWithIdx f1 s 0 (List.range H)) (foldWithIdx f2 a 0 (List.range H)) := by
  induction H with
  | zero => exact h0
  | succ m ih =>
    rw [List.range_succ, foldWithIdx_concat, foldWithIdx_concat,
      List.length_range, Nat.zero_add]
    exact hstep _ _ m ih

theorem chunksBySizes_flatten {α : Type} (l : List α) (szs : List Nat) :
    (chunksBySizes l szs).flatten = l.take szs.sum := by
  induction szs generalizing l with
  | nil => simp [chunksBySizes]
  | cons sz rest ih =>
    rw [chunksBySizes, List.flatten_cons, ih, List.sum_cons, List.take_add]

theorem splitSizes_sum {height n : Nat} (hn : n ≠ 0) :
    (splitSizes height n).sum = height := by
  rw [splitSizes, if_neg hn, List.sum_append, List.sum_replicate,
    smul_eq_mul, List.sum_singleton]
  have hle : (n - 1) * (height / n) ≤ height := by
    calc (n - 1) * (height / n) ≤ n * (height / n) :=
          Nat.mul_le_mul_right _ (by omega)
      _ = height / n * n := Nat.mul_comm _ _
      _ ≤ height := Nat.div_mul_le_self height n
  omega

theorem flatStepM_eq_some (cols : DFrame K) {n : Nat}
    (hp : isPowerOfTwo n = true) (t : Nat) (s : MState K) (i h : Nat) :
    flatStepM cols t n s i h = some (flatStepT cols t n s i h) := by
  rw [flatStepM, this_partition_eq_some hp, flatStepT]

/-- Closed form of one multi-key worker: under the power-of-two
assertion it computes exactly the canonical worker output over the
derived composite-key sequence. -/
theorem flat_worker_spec (hashRow : List (Option K) → Nat)
    (keys : DFrame K) {n : Nat} (hp : isPowerOfTwo n = true) (t : Nat) :
    ∃ s : MState K,
      foldChunksM (flatStepM keys t n) MState.init 0
          (chunksBySizes
            ((List.range (dfHeight keys)).map (fun i => hashRow (rowKey keys i)))
            (splitSizes (dfHeight keys) n)) = some s ∧
      s.firsts = (canonD (fun k => thisPartitionT (hashRow k) t n)
          (rowKeys keys)).map (fun k => firstOcc k (rowKeys keys)) ∧
      s.alls = (canonD (fun k => thisPartitionT (hashRow k) t n)
          (rowKeys keys)).map (fun k => idxsOf k (rowKeys keys)) := by
  have hn0 : n ≠ 0 := by
    have := one_le_of_isPowerOfTwo hp
    omega
  set H := dfHeight keys with hH
  set sT := foldChunks (flatStepT keys t n) MState.init 0
    (chunksBySizes ((List.range H).map (fun i => hashRow (rowKey keys i)))
      (splitSizes H n)) with hsT
  refine ⟨sT, ?_, ?_, ?_⟩
  · exact foldChunksM_of_total _ _ (flatStepM_eq_some keys hp t) _ _ _
  all_goals {
    have hflat : (chunksBySizes
        ((List.range H).map (fun i => hashRow (rowKey keys i)))
        (splitSizes H n)).flatten =
        (List.range H).map (fun i => hashRow (rowKey keys i)) := by
      rw [chunksBySizes_flatten, splitSizes_sum hn0]
      exact List.take_of_length_le (by simp)
    have hrel : MRel hashRow keys sT
        (runAccL (fun k => thisPartitionT (hashRow k) t n) (rowKeys keys)) := by
      rw [hsT, foldChunks_eq_flatten, hflat, foldWithIdx_map]
      have hacc : runAccL (fun k => thisPartitionT (hashRow k) t n)
          (rowKeys keys) =
          foldWithIdx (fun a j i =>
            accStep (fun k => thisPartitionT (hashRow k) t n) a j
              (rowKey keys i)) AccState.init 0 (List.range H) := by
        rw [runAccL, rowKeys, foldWithIdx_map, hH]
      rw [hacc]
      refine foldWithIdx_range_sim (MRel hashRow keys) _ _ ?_ H ?_
      · intro s a i hrel
        exact flatStepT_sim hashRow keys t n hrel i
      · exact ⟨by intro e he; exact absurd he (List.not_mem_nil e), rfl, rfl, rfl⟩
    obtain ⟨_, _, hf, hal⟩ := hrel
    rw [runAccL_eq] at hf hal
    first
      | exact hf.symm
      | exact hal.symm
  }

/-- `groupby_threaded_multiple_keys_flat` on well-formed keys under the
power-of-two assertion: hash, run the canonical workers over the
composite keys, finish. -/
theorem flat_eq (hashRow : List (Option K) → Nat) (keys : DFrame K)
    {n : Nat} (hp : isPowerOfTwo n = true) (hwf : wellFormed keys = true)
    (sorted : Bool) :
    groupby_threaded_multiple_keys_flat hashRow keys n sorted =
      Option.map Except.ok
        (finish_group_order_vecs (numVecs hashRow n (rowKeys keys)) sorted) := by
  rw [groupby_threaded_multiple_keys_flat, df_rows_to_hashes, if_pos hwf]
  dsimp only
  have hmap : mapO (fun thread_no =>
      match foldChunksM (flatStepM keys thread_no n) MState.init 0
          (chunksBySizes
            ((List.range (dfHeight keys)).map (fun i => hashRow (rowKey keys i)))
            (splitSizes (dfHeight keys) n)) with
      | none => none
      | some s => some (s.firsts, s.alls)) (List.range n) =
      some (numVecs hashRow n (rowKeys keys)) := by
    rw [numVecs]
    refine mapO_of_total _ _ _ ?_
    intro t _
    obtain ⟨s, hs, hf, hal⟩ := flat_worker_spec hashRow keys hp t
    rw [hs]
    dsimp only
    rw [hf, hal]
  cases hfin : finish_group_order_vecs (numVecs hashRow n (rowKeys keys)) sorted with
  | none =>
    rw [hmap]
    dsimp only
    rw [hfin]
    rfl
  | some g =>
    rw [hmap]
    dsimp only
    rw [hfin]
    rfl

end MultiKey

/-! ## Per-operation result characterizations -/

/-- Whatever `groupby_threaded_num2` returns is assembled from a pair
list that is a permutation of the canonical group list (strictly
rep-sorted in sorted mode). -/
theorem threaded_num2_items [DecidableEq T] (asU64 : T → Nat)
    (keys : List (List T)) {n : Nat} (hp : isPowerOfTwo n = true)
    (sorted : Bool) (g : GroupsProxy)
    (hg : groupby_threaded_num2 asU64 keys n sorted = some g) :
    ∃ items : List (IdxSize × List IdxSize),
      g = ⟨items.map Prod.fst, items.map Prod.snd, sorted⟩ ∧
      items.Perm ((dedup keys.flatten).map (groupPair keys.flatten)) ∧
      (sorted = true → items.Pairwise (fun a b => a.1 < b.1)) := by
  obtain ⟨items, hfin, hperm, hpair⟩ :=
    finish_numVecs_spec asU64 (one_le_of_isPowerOfTwo hp) keys.flatten sorted
  rw [groupby_threaded_num2_eq asU64 keys hp sorted, hfin,
    Option.some.injEq] at hg
  exact ⟨items, hg.symm, hperm, hpair⟩

/-- The analogue for the threaded multi-key path, over the derived
composite-key sequence. -/
theorem flat_items [DecidableEq K] (hashRow : List (Option K) → Nat)
    (keys : DFrame K) {n : Nat} (hp : isPowerOfTwo n = true)
    (hwf : wellFormed keys = true) (sorted : Bool) (g : GroupsProxy)
    (hg : groupby_threaded_multiple_keys_flat hashRow keys n sorted =
      some (Except.ok g)) :
    ∃ items : List (IdxSize × List IdxSize),
      g = ⟨items.map Prod.fst, items.map Prod.snd, sorted⟩ ∧
      items.Perm ((dedup (rowKeys keys)).map (groupPair (rowKeys keys))) ∧
      (sorted = true → items.Pairwise (fun a b => a.1 < b.1)) := by
  obtain ⟨items, hfin, hperm, hpair⟩ :=
    finish_numVecs_spec hashRow (one_le_of_isPowerOfTwo hp) (rowKeys keys) sorted
  rw [flat_eq hashRow keys hp hwf sorted, hfin] at hg
  simp only [Option.map_some', Option.some.injEq, Except.ok.injEq] at hg
  exact ⟨items, hg.symm, hperm, hpair⟩

/-- The length of the derived key sequence is the frame height. -/
theorem rowKeys_length [DecidableEq K] (keys : DFrame K) :
    (rowKeys keys).length = dfHeight keys := by
  rw [rowKeys, List.length_map, List.length_range]

/-- Helper for C2: a grouping result assembled from any permutation of
the canonical group list has correct representatives. -/
theorem repOk_of_items {κ : Type} [DecidableEq κ] {ks : List κ}
    {items : List (IdxSize × List IdxSize)} {b : Bool}
    (hperm : items.Perm ((dedup ks).map (groupPair ks))) :
    (GroupsIdx.mk (items.map Prod.fst) (items.map Prod.snd) b).first.length =
        (GroupsIdx.mk (items.map Prod.fst) (items.map Prod.snd) b).all.length ∧
    ∀ p ∈ (GroupsIdx.mk (items.map Prod.fst) (items.map Prod.snd) b).first.zip
        (GroupsIdx.mk (items.map Prod.fst) (items.map Prod.snd) b).all,
      p.2 ≠ [] ∧ p.2.head? = some p.1 ∧ ∀ i ∈ p.2, p.1 ≤ i := by
  refine ⟨by rw [List.length_map, List.length_map], ?_⟩
  intro p hp
  rw [zip_map_fst_snd] at hp
  have hpc : p ∈ (dedup ks).map (groupPair ks) := hperm.mem_iff.mp hp
  obtain ⟨k, hk, rfl⟩ := List.mem_map.mp hpc
  have hkks : k ∈ ks := mem_dedup.mp hk
  have hne : idxsOf k ks ≠ [] := by
    rw [Ne, idxsOf_eq_nil_iff]
    exact fun hc => hc hkks
  refine ⟨hne, ?_, ?_⟩
  · rw [groupPair]
    cases hl : idxsOf k ks with
    | nil => exact absurd hl hne
    | cons x xs => simp [firstOcc, hl]
  · intro i hi
    rw [groupPair] at hi ⊢
    exact pairwise_lt_headD_le (idxsOf_pairwise k ks) hi

/-! ## Claim theorems -/

/-- Two row indices fall in the same group of a grouping result. -/
def GroupsIdx.sameGroup (g : GroupsIdx) (a b : Nat) : Prop :=
  ∃ l ∈ g.all, a ∈ l ∧ b ∈ l

/-- C1: for every input key sequence of length `N`, every grouping
operation — sequential `groupby`, threaded-numeric
`groupby_threaded_num2`, and threaded multi-key
`groupby_threaded_multiple_keys_flat` — in both sorted and unsorted
mode, returns groups whose member index lists together contain each row
index in `{0, …, N−1}` exactly once (the flattened membership is a
permutation of `range N`). -/
theorem claim_C1_partition_property :
    (∀ {T : Type} [DecidableEq T] (ks : List T) (sorted : Bool),
      ((groupby ks sorted).all.flatten).Perm (List.range ks.length)) ∧
    (∀ {T : Type} [DecidableEq T] (asU64 : T → Nat) (keys : List (List T))
      (n : Nat) (sorted : Bool) (g : GroupsProxy),
      isPowerOfTwo n = true →
      groupby_threaded_num2 asU64 keys n sorted = some g →
      (g.all.flatten).Perm (List.range keys.flatten.length)) ∧
    (∀ {K : Type} [DecidableEq K] (hashRow : List (Option K) → Nat)
      (keys : DFrame K) (n : Nat) (sorted : Bool) (g : GroupsProxy),
      isPowerOfTwo n = true → wellFormed keys = true →
      groupby_threaded_multiple_keys_flat hashRow keys n sorted =
        some (Except.ok g) →
      (g.all.flatten).Perm (List.range (dfHeight keys))) := by
  refine ⟨?_, ?_, ?_⟩
  · intro T _ ks sorted
    rw [groupby_eq]
    exact flatten_idxsOf_dedup_perm ks
  · intro T _ asU64 keys n sorted g hp hg
    obtain ⟨items, rfl, hperm, _⟩ := threaded_num2_items asU64 keys hp sorted g hg
    have hall : (items.map Prod.snd).Perm
        ((dedup keys.flatten).map (fun k => idxsOf k keys.flatten)) := by
      have := hperm.map Prod.snd
      rw [List.map_map] at this
      exact this
    exact (hall.flatten).trans (flatten_idxsOf_dedup_perm keys.flatten)
  · intro K _ hashRow keys n sorted g hp hwf hg
    obtain ⟨items, rfl, hperm, _⟩ := flat_items hashRow keys hp hwf sorted g hg
    have hall : (items.map Prod.snd).Perm
        ((dedup (rowKeys keys)).map (fun k => idxsOf k (rowKeys keys))) := by
      have := hperm.map Prod.snd
      rw [List.map_map] at this
      exact this
    have hcov := flatten_idxsOf_dedup_perm (rowKeys keys)
    rw [rowKeys_length] at hcov
    exact (hall.flatten).trans hcov

/-- C2: for every grouping operation and every group of its result, the
member list is non-empty, its first element is the recorded
representative, and the representative is the least (first-in-input-order)
index among the members. -/
theorem claim_C2_representatives :
    (∀ {T : Type} [DecidableEq T] (ks : List T) (sorted : Bool),
      (groupby ks sorted).first.length = (groupby ks sorted).all.length ∧
      ∀ p ∈ (groupby ks sorted).first.zip (groupby ks sorted).all,
        p.2 ≠ [] ∧ p.2.head? = some p.1 ∧ ∀ i ∈ p.2, p.1 ≤ i) ∧
    (∀ {T : Type} [DecidableEq T] (asU64 : T → Nat) (keys : List (List T))
      (n : Nat) (sorted : Bool) (g : GroupsProxy),
      isPowerOfTwo n = true →
      groupby_threaded_num2 asU64 keys n sorted = some g →
      g.first.length = g.all.length ∧
      ∀ p ∈ g.first.zip g.all,
        p.2 ≠ [] ∧ p.2.head? = some p.1 ∧ ∀ i ∈ p.2, p.1 ≤ i) ∧
    (∀ {K : Type} [DecidableEq K] (hashRow : List (Option K) → Nat)
      (keys : DFrame K) (n : Nat) (sorted : Bool) (g : GroupsProxy),
      isPowerOfTwo n = true → wellFormed keys = true →
      groupby_threaded_multiple_keys_flat hashRow keys n sorted =
        some (Except.ok g) →
      g.first.length = g.all.length ∧
      ∀ p ∈ g.first.zip g.all,
        p.2 ≠ [] ∧ p.2.head? = some p.1 ∧ ∀ i ∈ p.2, p.1 ≤ i) := by
  refine ⟨?_, ?_, ?_⟩
  · intro T _ ks sorted
    have hform : groupby ks sorted =
        ⟨((dedup ks).map (groupPair ks)).map Prod.fst,
         ((dedup ks).map (groupPair ks)).map Prod.snd, sorted⟩ := by
      rw [groupby_eq, List.map_map, List.map_map]
      rfl
    rw [hform]
    exact repOk_of_items (List.Perm.refl _)
  · intro T _ asU64 keys n sorted g hp hg
    obtain ⟨items, rfl, hperm, _⟩ := threaded_num2_items asU64 keys hp sorted g hg
    exact repOk_of_items hperm
  · intro K _ hashRow keys n sorted g hp hwf hg
    obtain ⟨items, rfl, hperm, _⟩ := flat_items hashRow keys hp hwf sorted g hg
    exact repOk_of_items hperm

/-- C3: whenever sorted mode is requested — on the sequential path, and
on both threaded paths for every power-of-two worker count including the
one-worker special case (which is returned directly, marked sorted,
without a sort step) — consecutive groups have strictly increasing
representative indices, and the result carries the sorted flag. -/
theorem claim_C3_sorted_order :
    (∀ {T : Type} [DecidableEq T] (ks : List T),
      (groupby ks true).sorted = true ∧
      List.Chain' (· < ·) (groupby ks true).first) ∧
    (∀ {T : Type} [DecidableEq T] (asU64 : T → Nat) (keys : List (List T))
      (n : Nat) (g : GroupsProxy),
      isPowerOfTwo n = true →
      groupby_threaded_num2 asU64 keys n true = some g →
      g.sorted = true ∧ List.Chain' (· < ·) g.first) ∧
    (∀ {K : Type} [DecidableEq K] (hashRow : List (Option K) → Nat)
      (keys : DFrame K) (n : Nat) (g : GroupsProxy),
      isPowerOfTwo n = true → wellFormed keys = true →
      groupby_threaded_multiple_keys_flat hashRow keys n true =
        some (Except.ok g) →
      g.sorted = true ∧ List.Chain' (· < ·) g.first) := by
  refine ⟨?_, ?_, ?_⟩
  · intro T _ ks
    rw [groupby_eq]
    refine ⟨rfl, List.Pairwise.chain' ?_⟩
    rw [List.pairwise_map]
    exact pairwise_firstOcc_dedup ks
  · intro T _ asU64 keys n g hp hg
    obtain ⟨items, rfl, _, hpair⟩ := threaded_num2_items asU64 keys hp true g hg
    refine ⟨rfl, List.Pairwise.chain' ?_⟩
    rw [List.pairwise_map]
    exact hpair rfl
  · intro K _ hashRow keys n g hp hwf hg
    obtain ⟨items, rfl, _, hpair⟩ := flat_items hashRow keys hp hwf true g hg
    refine ⟨rfl, List.Pairwise.chain' ?_⟩
    rw [List.pairwise_map]
    exact hpair rfl

/-- C4: for every chunked key sequence and every power-of-two partition
count `n > 1`, the threaded-numeric grouping produces the same set of
groups as the sequential grouping of the flattened keys — the
`(representative, members)` pairs agree up to permutation in unsorted
mode and outright (same order) in sorted mode. -/
theorem claim_C4_threading_invariance :
    ∀ {T : Type} [DecidableEq T] (asU64 : T → Nat) (keys : List (List T))
      (n : Nat), isPowerOfTwo n = true → 1 < n →
      (∀ g : GroupsProxy, groupby_threaded_num2 asU64 keys n false = some g →
        (g.first.zip g.all).Perm
          ((groupby keys.flatten false).first.zip
            (groupby keys.flatten false).all)) ∧
      groupby_threaded_num2 asU64 keys n true = some (groupby keys.flatten true) := by
  intro T _ asU64 keys n hp _
  constructor
  · intro g hg
    obtain ⟨items, rfl, hperm, _⟩ := threaded_num2_items asU64 keys hp false g hg
    rw [zip_map_fst_snd]
    have hseq : (groupby keys.flatten false).first.zip
        (groupby keys.flatten false).all =
        (dedup keys.flatten).map (groupPair keys.flatten) := by
      rw [groupby_eq]
      exact List.zip_map' _ _ _
    rw [hseq]
    exact hperm
  · obtain ⟨items, hfin, hperm, hpair⟩ :=
      finish_numVecs_spec asU64 (one_le_of_isPowerOfTwo hp) keys.flatten true
    rw [groupby_threaded_num2_eq asU64 keys hp true, hfin]
    have hitems : items = (dedup keys.flatten).map (groupPair keys.flatten) :=
      eq_of_perm_of_pairwise_key_lt Prod.fst hperm (hpair rfl)
        (pairwise_groupPair_dedup keys.flatten)
    rw [hitems, groupby_eq, List.map_map, List.map_map]
    rfl

/-- C5: in the multi-key path, two in-range rows land in the same group
iff every key column compares equal at the two rows (the short-circuit
AND comparator over the composite key) — for every hash function, so
never by hash value alone. -/
theorem claim_C5_multikey_equivalence :
    ∀ {K : Type} [DecidableEq K] (hashRow : List (Option K) → Nat)
      (keys : DFrame K) (n : Nat) (sorted : Bool) (g : GroupsProxy)
      (a b : Nat),
      isPowerOfTwo n = true → wellFormed keys = true →
      a < dfHeight keys → b < dfHeight keys →
      groupby_threaded_multiple_keys_flat hashRow keys n sorted =
        some (Except.ok g) →
      (g.sameGroup a b ↔ compare_keys keys a b = true) := by
  intro K _ hashRow keys n sorted g a b hp hwf ha hb hg
  obtain ⟨items, rfl, hperm, _⟩ := flat_items hashRow keys hp hwf sorted g hg
  have hgeta : (rowKeys keys).get? a = some (rowKey keys a) := by
    rw [rowKeys, List.get?_map, List.get?_range ha]
    rfl
  have hgetb : (rowKeys keys).get? b = some (rowKey keys b) := by
    rw [rowKeys, List.get?_map, List.get?_range hb]
    rfl
  have hall : (GroupsIdx.mk (items.map Prod.fst) (items.map Prod.snd)
      sorted).all = items.map Prod.snd := rfl
  constructor
  · rintro ⟨l, hl, hal, hbl⟩
    rw [hall] at hl
    have hl2 : l ∈ ((dedup (rowKeys keys)).map (groupPair (rowKeys keys))).map
        Prod.snd := (hperm.map Prod.snd).mem_iff.mp hl
    rw [List.map_map] at hl2
    obtain ⟨k, hk, rfl⟩ := List.mem_map.mp hl2
    have hka : rowKey keys a = k := by
      have := mem_idxsOf.mp hal
      rw [hgeta] at this
      exact (Option.some.injEq _ _ ▸ this :)
    have hkb : rowKey keys b = k := by
      have := mem_idxsOf.mp hbl
      rw [hgetb] at this
      exact (Option.some.injEq _ _ ▸ this :)
    exact (compare_keys_iff keys a b).mpr (hka.trans hkb.symm)
  · intro hcmp
    have hre : rowKey keys a = rowKey keys b := (compare_keys_iff keys a b).mp hcmp
    have hkmem : rowKey keys a ∈ dedup (rowKeys keys) :=
      mem_dedup.mpr (List.get?_mem hgeta)
    refine ⟨idxsOf (rowKey keys a) (rowKeys keys), ?_, ?_, ?_⟩
    · rw [hall]
      refine (hperm.map Prod.snd).mem_iff.mpr ?_
      rw [List.map_map]
      refine List.mem_map.mpr ⟨rowKey keys a, hkmem, rfl⟩
    · exact mem_idxsOf.mpr hgeta
    · rw [hre]
      exact mem_idxsOf.mpr hgetb

/-! ## Abort behaviour on a non-power-of-two partition count -/

theorem flatStepM_none [DecidableEq K] (cols : DFrame K) {n : Nat}
    (hp : isPowerOfTwo n = false) (t : Nat) (s : MState K) (i h : Nat) :
    flatStepM cols t n s i h = none := by
  rw [flatStepM, this_partition, if_neg (by simp [hp])]

theorem foldChunksM_flat_abort [DecidableEq K] (cols : DFrame K) {n : Nat}
    (hp : isPowerOfTwo n = false) (t : Nat) :
    ∀ (chunks : List (List Nat)) (s : MState K) (off : Nat),
      chunks.flatten ≠ [] →
      foldChunksM (flatStepM cols t n) s off chunks = none := by
  intro chunks
  induction chunks with
  | nil =>
    intro s off h
    simp at h
  | cons c cs ih =>
    intro s off h
    cases c with
    | nil =>
      show foldChunksM (flatStepM cols t n) s (off + List.length []) cs = none
      refine ih s _ ?_
      simpa using h
    | cons x xs =>
      rw [foldChunksM, foldWithIdxM, flatStepM_none cols hp t]

theorem mapO_range_none {β : Type} (f : Nat → Option β) {n : Nat}
    (hn : 1 ≤ n) (h0 : f 0 = none) : mapO f (List.range n) = none := by
  obtain ⟨m, rfl⟩ : ∃ m, n = m + 1 := ⟨n - 1, by omega⟩
  rw [List.range_succ_eq_map, mapO, h0]

/-- C6 (counterexample): on the threaded multi-key path with an empty
(zero-row) key frame, a non-power-of-two partition count does *not*
abort: the call completes normally with an empty grouping result, because
the partitioner's assertion sits inside the per-row loop and no row is
ever scanned. -/
theorem claim_C6_counterexample :
    isPowerOfTwo 3 = false ∧
    groupby_threaded_multiple_keys_flat (fun _ => 0) ([[]] : DFrame Nat) 3
        false = some (Except.ok ⟨[], [], false⟩) :=
  ⟨rfl, rfl⟩

/-- C6 (amended): if `n_partitions` is not a power of two, the
threaded-numeric path aborts before doing any work for every input; the
threaded multi-key path aborts at the first scanned row — hence for every
structurally compatible input with at least one row (with `n_partitions ≥
1`, as the engine requires) — and in neither case is the violation
surfaced as a recoverable error result. -/
theorem claim_C6_amended :
    (∀ {T : Type} [DecidableEq T] (asU64 : T → Nat) (keys : List (List T))
      (n : Nat) (sorted : Bool), isPowerOfTwo n = false →
      groupby_threaded_num2 asU64 keys n sorted = none) ∧
    (∀ {K : Type} [DecidableEq K] (hashRow : List (Option K) → Nat)
      (keys : DFrame K) (n : Nat) (sorted : Bool),
      isPowerOfTwo n = false → 1 ≤ n → wellFormed keys = true →
      1 ≤ dfHeight keys →
      groupby_threaded_multiple_keys_flat hashRow keys n sorted = none) := by
  constructor
  · intro T _ asU64 keys n sorted hp
    rw [groupby_threaded_num2, if_neg (by simp [hp])]
  · intro K _ hashRow keys n sorted hp hn hwf hh
    rw [groupby_threaded_multiple_keys_flat, df_rows_to_hashes, if_pos hwf]
    dsimp only
    have habort : foldChunksM (flatStepM keys 0 n) MState.init 0
        (chunksBySizes
          ((List.range (dfHeight keys)).map (fun i => hashRow (rowKey keys i)))
          (splitSizes (dfHeight keys) n)) = none := by
      refine foldChunksM_flat_abort keys hp 0 _ _ _ ?_
      rw [chunksBySizes_flatten, splitSizes_sum (by omega),
        List.take_of_length_le (by simp)]
      refine List.ne_nil_of_length_pos ?_
      rw [List.length_map, List.length_range]
      omega
    rw [mapO_range_none _ hn (by rw [habort])]

/-- C7: the multi-key entry point is the one fallible grouping operation:
structurally incompatible key columns surface as a recoverable error
result (never a panic), while for well-formed input (and the asserted
power-of-two partition count) both it and the threaded-numeric path
always return a grouping result; the sequential path is total by
construction. -/
theorem claim_C7_error_handling :
    (∀ {K : Type} [DecidableEq K] (hashRow : List (Option K) → Nat)
      (keys : DFrame K) (n : Nat) (sorted : Bool),
      wellFormed keys = false →
      groupby_threaded_multiple_keys_flat hashRow keys n sorted =
        some (Except.error PolarsError.shapeMismatch)) ∧
    (∀ {K : Type} [DecidableEq K] (hashRow : List (Option K) → Nat)
      (keys : DFrame K) (n : Nat) (sorted : Bool),
      isPowerOfTwo n = true → wellFormed keys = true →
      ∃ g : GroupsProxy,
        groupby_threaded_multiple_keys_flat hashRow keys n sorted =
          some (Except.ok g)) ∧
    (∀ {T : Type} [DecidableEq T] (asU64 : T → Nat) (keys : List (List T))
      (n : Nat) (sorted : Bool), isPowerOfTwo n = true →
      ∃ g : GroupsProxy, groupby_threaded_num2 asU64 keys n sorted = some g) := by
  refine ⟨?_, ?_, ?_⟩
  · intro K _ hashRow keys n sorted hwf
    rw [groupby_threaded_multiple_keys_flat, df_rows_to_hashes,
      if_neg (by simp [hwf])]
  · intro K _ hashRow keys n sorted hp hwf
    obtain ⟨items, hfin, _, _⟩ :=
      finish_numVecs_spec hashRow (one_le_of_isPowerOfTwo hp) (rowKeys keys) sorted
    refine ⟨⟨items.map Prod.fst, items.map Prod.snd, sorted⟩, ?_⟩
    rw [flat_eq hashRow keys hp hwf sorted, hfin]
    rfl
  · intro T _ asU64 keys n sorted hp
    obtain ⟨items, hfin, _, _⟩ :=
      finish_numVecs_spec asU64 (one_le_of_isPowerOfTwo hp) keys.flatten sorted
    exact ⟨⟨items.map Prod.fst, items.map Prod.snd, sorted⟩,
      by rw [groupby_threaded_num2_eq asU64 keys hp sorted, hfin]⟩

/-- C8: the multi-key table-population routines
(`populate_multiple_key_hashmap` and `populate_multiple_key_hashmap2`)
have exactly two behaviours.  If no stored entry matches the probe (same
stored hash and row equality with the given index), a new entry keyed by
the `(index, hash)` pair with the vacant producer's value is appended and
the occupied updater is never invoked (the auxiliary state is the vacant
producer's alone).  If the table splits at a first matching entry, that
entry's value is updated by the occupied updater, the vacant producer is
never invoked, and the key set is unchanged.  The two cases are
exhaustive. -/
theorem claim_C8_population_routine :
    ∀ {K V σ : Type} [DecidableEq K] (tbl : List (IdxHash × V))
      (idx : IdxSize) (h : Nat) (keys : DFrame K) (vf : σ → V × σ)
      (of : V → σ → V × σ) (st : σ),
      ((∀ e ∈ tbl, probe2 keys idx h e.1 = false) →
        populate_multiple_key_hashmap2 tbl idx h keys vf of st =
          (tbl ++ [(⟨idx, h⟩, (vf st).1)], (vf st).2) ∧
        populate_multiple_key_hashmap tbl idx h keys vf of st =
          (tbl ++ [(⟨idx, h⟩, (vf st).1)], (vf st).2)) ∧
      (∀ (t1 : List (IdxHash × V)) (e : IdxHash × V)
        (t2 : List (IdxHash × V)), tbl = t1 ++ e :: t2 →
        (∀ x ∈ t1, probe2 keys idx h x.1 = false) →
        probe2 keys idx h e.1 = true →
        populate_multiple_key_hashmap2 tbl idx h keys vf of st =
          (t1 ++ (e.1, (of e.2 st).1) :: t2, (of e.2 st).2) ∧
        populate_multiple_key_hashmap tbl idx h keys vf of st =
          (t1 ++ (e.1, (of e.2 st).1) :: t2, (of e.2 st).2) ∧
        (t1 ++ (e.1, (of e.2 st).1) :: t2).map Prod.fst = tbl.map Prod.fst) ∧
      ((∀ e ∈ tbl, probe2 keys idx h e.1 = false) ∨
        ∃ (t1 : List (IdxHash × V)) (e : IdxHash × V)
          (t2 : List (IdxHash × V)), tbl = t1 ++ e :: t2 ∧
          (∀ x ∈ t1, probe2 keys idx h x.1 = false) ∧
          probe2 keys idx h e.1 = true) := by
  intro K V σ _ tbl idx h keys vf of st
  refine ⟨?_, ?_, probe_cases _ tbl⟩
  · intro hnone
    refine ⟨populate2_vacant keys idx h vf of st hnone, ?_⟩
    have hp1 : ∀ e ∈ tbl, probe1 keys idx h e.1 = false := by
      intro e he
      rw [probe1_eq_probe2]
      exact hnone e he
    exact populate1_vacant keys idx h vf of st hp1
  · intro t1 e t2 hsplit h1 he
    subst hsplit
    refine ⟨populate2_occupied keys idx h vf of st t1 t2 e h1 he, ?_, ?_⟩
    · have hp1 : ∀ x ∈ t1, probe1 keys idx h x.1 = false := by
        intro x hx
        rw [probe1_eq_probe2]
        exact h1 x hx
      have hpe : probe1 keys idx h e.1 = true := by
        rw [probe1_eq_probe2]
        exact he
      exact populate1_occupied keys idx h vf of st t1 t2 e hp1 hpe
    · rw [List.map_append, List.map_append, List.map_cons, List.map_cons]

/-- C9: the sorted-mode finishing step is idempotent on an
already-rep-sorted grouping result: fed back in as a single worker it is
returned unchanged (the one-worker shortcut), and fed through the
multi-worker scatter-and-sort path (padded with an empty second worker)
the sort leaves the already-sorted groups identical. -/
theorem claim_C9_sort_idempotent :
    ∀ (first : List IdxSize) (all : List (List IdxSize)),
      first.Pairwise (· < ·) → first.length = all.length →
      finish_group_order_vecs [(first, all)] true = some ⟨first, all, true⟩ ∧
      finish_group_order_vecs [(first, all), ([], [])] true =
        some ⟨first, all, true⟩ := by
  intro first all hpair hlen
  refine ⟨finish_sorted_single first all, ?_⟩
  rw [finish_sorted_multi _ (by simp) (by simp [hlen])]
  have hzip : ([(first, all), (([] : List IdxSize),
      ([] : List (List IdxSize)))].map (fun v => v.1.zip v.2)).flatten =
      first.zip all := by
    simp [List.zip_nil_left]
  rw [hzip]
  have hpairzip : (first.zip all).Pairwise (fun a b => a.1 < b.1) := by
    rw [← List.pairwise_map (f := Prod.fst)]
    rw [List.map_fst_zip first all (le_of_eq hlen)]
    exact hpair
  rw [insertionSort_of_pairwise_key_lt hpairzip,
    List.map_fst_zip first all (le_of_eq hlen),
    List.map_snd_zip first all (ge_of_eq hlen)]

/-! ## Zero key columns -/

theorem flatten_map_range_single {α : Type} (n t₀ : Nat) (h : t₀ < n)
    (l : List α) :
    ((List.range n).map (fun t => if t₀ = t then l else [])).flatten = l := by
  induction n with
  | zero => omega
  | succ m ih =>
    rw [List.range_succ, List.map_append, List.flatten_append]
    by_cases h0 : t₀ = m
    · subst h0
      have hz : ((List.range t₀).map
          (fun t => if t₀ = t then l else [])).flatten = ([] : List α) := by
        rw [List.flatten_eq_nil_iff]
        intro x hx
        obtain ⟨t, ht, rfl⟩ := List.mem_map.mp hx
        rw [if_neg]
        intro hc
        subst hc
        exact absurd (List.mem_range.mp ht) (lt_irrefl _)
      rw [hz, List.map_singleton, if_pos rfl]
      simp
    · rw [ih (by omega), List.map_singleton, if_neg h0]
      simp

/-- With zero key columns the worker owning the constant hash
accumulates every row into one group. -/
theorem c10_owner_fold (c n : Nat) :
    ∀ N, 1 ≤ N →
      foldWithIdx (flatStepT ([] : DFrame Nat) (c &&& (n - 1)) n)
        MState.init 0 (List.replicate N c) =
      ⟨[(⟨0, c⟩, 0)], [0], [List.range N]⟩ := by
  have hown : thisPartitionT c (c &&& (n - 1)) n = true := by
    simp [thisPartitionT]
  intro N
  induction N with
  | zero => omega
  | succ m ih =>
    intro _
    by_cases hm : 1 ≤ m
    · rw [List.replicate_succ', foldWithIdx_concat, ih hm,
        List.length_replicate, Nat.zero_add]
      rw [flatStepT, if_pos hown, flatUpd]
      have hprobe : (c == IdxHash.hash ⟨0, c⟩ &&
          compare_keys ([] : DFrame Nat) (IdxHash.idx ⟨0, c⟩) m) = true := by
        simp [compare_keys]
      rw [populate_multiple_key_hashmap2, if_pos hprobe]
      simp only [MState.mk.injEq]
      refine ⟨trivial, trivial, ?_⟩
      show pushAt [List.range m] 0 m = [List.range (m + 1)]
      rw [pushAt, List.range_succ]
    · have hm0 : m = 0 := by omega
      subst hm0
      show foldWithIdx (flatStepT ([] : DFrame Nat) (c &&& (n - 1)) n)
        MState.init 0 [c] = ⟨[(⟨0, c⟩, 0)], [0], [List.range 1]⟩
      show flatStepT ([] : DFrame Nat) (c &&& (n - 1)) n MState.init 0 c =
        ⟨[(⟨0, c⟩, 0)], [0], [List.range 1]⟩
      rw [flatStepT, if_pos hown, flatUpd]
      rfl

/-- Workers that do not own the constant hash accumulate nothing. -/
theorem c10_other_fold (c n t : Nat) (ht : (c &&& (n - 1)) ≠ t) :
    ∀ (N : Nat) (s : MState Nat) (i : Nat),
      foldWithIdx (flatStepT ([] : DFrame Nat) t n) s i
        (List.replicate N c) = s := by
  have hown : thisPartitionT c t n = false := beq_eq_false_iff_ne.mpr ht
  intro N
  induction N with
  | zero => intro s i; rfl
  | succ m ih =>
    intro s i
    show foldWithIdx (flatStepT ([] : DFrame Nat) t n)
      (flatStepT ([] : DFrame Nat) t n s i c) (i + 1)
      (List.replicate m c) = s
    rw [flatStepT, if_neg (by rw [hown]; exact Bool.noConfusion), ih]

/-- C10: with an empty set of key columns both row comparators return
true for every pair of indices, so the multi-key accumulation machinery
places all rows of a non-empty input into a single group: running the
per-partition workers over any constant per-row hash `c` and finishing
yields exactly one group, owned by the worker claiming `c`, holding every
row index with representative 0. -/
theorem claim_C10_zero_key_columns :
    (∀ {K : Type} [DecidableEq K] (a b : Nat),
      compare_df_rows ([] : DFrame K) a b = true ∧
      compare_keys ([] : List (Column K)) a b = true) ∧
    (∀ (N c n : Nat) (sorted : Bool), isPowerOfTwo n = true → 1 ≤ N →
      (match mapO (fun t =>
          match foldChunksM (flatStepM ([] : DFrame Nat) t n) MState.init 0
              [List.replicate N c] with
          | none => none
          | some s => some (s.firsts, s.alls)) (List.range n) with
       | none => none
       | some v => finish_group_order_vecs v sorted) =
        some ⟨[0], [List.range N], sorted⟩) := by
  constructor
  · intro K _ a b
    exact ⟨rfl, rfl⟩
  · intro N c n sorted hp hN
    have hn1 : 1 ≤ n := one_le_of_isPowerOfTwo hp
    have ht₀ : c &&& (n - 1) < n := mask_lt hn1 c
    have hw : ∀ t ∈ List.range n,
        (fun t => match foldChunksM (flatStepM ([] : DFrame Nat) t n)
            MState.init 0 [List.replicate N c] with
          | none => none
          | some s => some (s.firsts, s.alls)) t =
        (fun t => some (if c &&& (n - 1) = t
          then (([0] : List IdxSize), [List.range N])
          else ([], []))) t := by
      intro t _
      dsimp only
      have hchunk : foldChunksM (flatStepM ([] : DFrame Nat) t n)
          MState.init 0 [List.replicate N c] =
          some (foldWithIdx (flatStepT ([] : DFrame Nat) t n)
            MState.init 0 (List.replicate N c)) := by
        rw [foldChunksM_of_total _ _ (flatStepM_eq_some [] hp t)]
        rw [foldChunks_eq_flatten]
        simp
      rw [hchunk]
      by_cases hts : c &&& (n - 1) = t
      · subst hts
        rw [c10_owner_fold c n N hN, if_pos rfl]
      · rw [c10_other_fold c n t hts N, if_neg hts]
        rfl
    rw [mapO_of_total _ _ _ hw]
    dsimp only
    cases sorted with
    | false =>
      rw [finish_unsorted]
      have hfst : ((List.range n).map (fun t => if c &&& (n - 1) = t
          then (([0] : List IdxSize), [List.range N])
          else ([], []))).map Prod.fst =
          (List.range n).map (fun t => if c &&& (n - 1) = t
            then ([0] : List IdxSize) else []) := by
        rw [List.map_map]
        refine List.map_congr_left ?_
        intro t _
        simp only [Function.comp_apply]
        by_cases hts : c &&& (n - 1) = t
        · rw [if_pos hts, if_pos hts]
        · rw [if_neg hts, if_neg hts]
      have hsnd : ((List.range n).map (fun t => if c &&& (n - 1) = t
          then (([0] : List IdxSize), [List.range N])
          else ([], []))).map Prod.snd =
          (List.range n).map (fun t => if c &&& (n - 1) = t
            then [List.range N] else []) := by
        rw [List.map_map]
        refine List.map_congr_left ?_
        intro t _
        simp only [Function.comp_apply]
        by_cases hts : c &&& (n - 1) = t
        · rw [if_pos hts, if_pos hts]
        · rw [if_neg hts, if_neg hts]
      rw [GroupsIdx.ofVecs, hfst, hsnd, flatten_map_range_single n _ ht₀,
        flatten_map_range_single n _ ht₀]
    | true =>
      by_cases hn : n = 1
      · subst hn
        have h0 : c &&& 0 = 0 := Nat.and_zero c
        have hvecs : (List.range 1).map (fun t => if c &&& (1 - 1) = t
            then (([0] : List IdxSize), [List.range N])
            else ([], [])) = [([0], [List.range N])] := by
          show [if c &&& 0 = 0 then (([0] : List IdxSize), [List.range N])
            else ([], [])] = [([0], [List.range N])]
          rw [if_pos h0]
        rw [hvecs, finish_sorted_single]
      · have hlen : ((List.range n).map (fun t => if c &&& (n - 1) = t
            then (([0] : List IdxSize), [List.range N])
            else ([], []))).length ≠ 1 := by
          rw [List.length_map, List.length_range]
          exact hn
        have hall : ((List.range n).map (fun t => if c &&& (n - 1) = t
            then (([0] : List IdxSize), [List.range N])
            else ([], []))).all (fun v => v.1.length == v.2.length) = true := by
          rw [List.all_eq_true]
          intro v hv
          obtain ⟨t, _, rfl⟩ := List.mem_map.mp hv
          by_cases hts : c &&& (n - 1) = t
          · rw [if_pos hts]
            rfl
          · rw [if_neg hts]
            rfl
        rw [finish_sorted_multi _ hlen hall]
        have hitems : (((List.range n).map (fun t => if c &&& (n - 1) = t
            then (([0] : List IdxSize), [List.range N])
            else ([], []))).map (fun v => v.1.zip v.2)).flatten =
            [(0, List.range N)] := by
          rw [List.map_map]
          have hcong : ∀ t ∈ List.range n,
              ((fun v : List IdxSize × List (List IdxSize) => v.1.zip v.2) ∘
                fun t => if c &&& (n - 1) = t
                  then (([0] : List IdxSize), [List.range N])
                  else ([], [])) t =
              (fun t => if c &&& (n - 1) = t
                then [((0 : IdxSize), List.range N)] else []) t := by
            intro t _
            simp only [Function.comp_apply]
            by_cases hts : c &&& (n - 1) = t
            · rw [if_pos hts, if_pos hts]
              rfl
            · rw [if_neg hts, if_neg hts]
              rfl
          rw [List.map_congr_left hcong, flatten_map_range_single n _ ht₀]
        rw [hitems]
        rfl

/-! ## Witnesses: the claim theorems instantiated at concrete inputs -/

theorem claim_C1_partition_property_witness :
    ((groupby [1, 2, 1, 3, 2, 1] true).all.flatten).Perm (List.range 6) ∧
    ((GroupsIdx.mk [1, 0, 3] [[1, 4], [0, 2, 5], [3]] false).all.flatten).Perm
      (List.range 6) ∧
    ((GroupsIdx.mk [0, 1, 3] [[0, 2], [1], [3]] false).all.flatten).Perm
      (List.range 4) :=
  ⟨claim_C1_partition_property.1 [1, 2, 1, 3, 2, 1] true,
   claim_C1_partition_property.2.1 id [[1, 2, 1, 3, 2, 1]] 2 false
     ⟨[1, 0, 3], [[1, 4], [0, 2, 5], [3]], false⟩ (by decide) rfl,
   claim_C1_partition_property.2.2 (fun _ : List (Option Nat) => 0)
     [[0, 0, 0, 1], [1, 2, 1, 1]] 2 false
     ⟨[0, 1, 3], [[0, 2], [1], [3]], false⟩ (by decide) (by decide) rfl⟩

theorem claim_C2_representatives_witness :
    ((groupby [1, 2, 1, 3, 2, 1] false).first.length =
        (groupby [1, 2, 1, 3, 2, 1] false).all.length ∧
      ∀ p ∈ (groupby [1, 2, 1, 3, 2, 1] false).first.zip
          (groupby [1, 2, 1, 3, 2, 1] false).all,
        p.2 ≠ [] ∧ p.2.head? = some p.1 ∧ ∀ i ∈ p.2, p.1 ≤ i) ∧
    ((GroupsIdx.mk [1, 0, 3] [[1, 4], [0, 2, 5], [3]] false).first.length =
        (GroupsIdx.mk [1, 0, 3] [[1, 4], [0, 2, 5], [3]] false).all.length ∧
      ∀ p ∈ (GroupsIdx.mk [1, 0, 3] [[1, 4], [0, 2, 5], [3]] false).first.zip
          (GroupsIdx.mk [1, 0, 3] [[1, 4], [0, 2, 5], [3]] false).all,
        p.2 ≠ [] ∧ p.2.head? = some p.1 ∧ ∀ i ∈ p.2, p.1 ≤ i) ∧
    ((GroupsIdx.mk [0, 1, 3] [[0, 2], [1], [3]] false).first.length =
        (GroupsIdx.mk [0, 1, 3] [[0, 2], [1], [3]] false).all.length ∧
      ∀ p ∈ (GroupsIdx.mk [0, 1, 3] [[0, 2], [1], [3]] false).first.zip
          (GroupsIdx.mk [0, 1, 3] [[0, 2], [1], [3]] false).all,
        p.2 ≠ [] ∧ p.2.head? = some p.1 ∧ ∀ i ∈ p.2, p.1 ≤ i) :=
  ⟨claim_C2_representatives.1 [1, 2, 1, 3, 2, 1] false,
   claim_C2_representatives.2.1 id [[1, 2, 1, 3, 2, 1]] 2 false
     ⟨[1, 0, 3], [[1, 4], [0, 2, 5], [3]], false⟩ (by decide) rfl,
   claim_C2_representatives.2.2 (fun _ : List (Option Nat) => 0)
     [[0, 0, 0, 1], [1, 2, 1, 1]] 2 false
     ⟨[0, 1, 3], [[0, 2], [1], [3]], false⟩ (by decide) (by decide) rfl⟩

theorem claim_C3_sorted_order_witness :
    ((groupby [1, 2, 1, 3, 2, 1] true).sorted = true ∧
      List.Chain' (· < ·) (groupby [1, 2, 1, 3, 2, 1] true).first) ∧
    ((GroupsIdx.mk [0, 1, 3] [[0, 2, 5], [1, 4], [3]] true).sorted = true ∧
      List.Chain' (· < ·)
        (GroupsIdx.mk [0, 1, 3] [[0, 2, 5], [1, 4], [3]] true).first) ∧
    ((GroupsIdx.mk [0, 1, 3] [[0, 2], [1], [3]] true).sorted = true ∧
      List.Chain' (· < ·)
        (GroupsIdx.mk [0, 1, 3] [[0, 2], [1], [3]] true).first) :=
  ⟨claim_C3_sorted_order.1 [1, 2, 1, 3, 2, 1],
   claim_C3_sorted_order.2.1 id [[1, 2, 1, 3, 2, 1]] 2
     ⟨[0, 1, 3], [[0, 2, 5], [1, 4], [3]], true⟩ (by decide) rfl,
   claim_C3_sorted_order.2.2 (fun _ : List (Option Nat) => 0)
     [[0, 0, 0, 1], [1, 2, 1, 1]] 2
     ⟨[0, 1, 3], [[0, 2], [1], [3]], true⟩ (by decide) (by decide) rfl⟩

theorem claim_C4_threading_invariance_witness :
    (((GroupsIdx.mk [1, 0, 3] [[1, 4], [0, 2, 5], [3]] false).first.zip
        (GroupsIdx.mk [1, 0, 3] [[1, 4], [0, 2, 5], [3]] false).all).Perm
      ((groupby [1, 2, 1, 3, 2, 1] false).first.zip
        (groupby [1, 2, 1, 3, 2, 1] false).all)) ∧
    groupby_threaded_num2 id [[1, 2, 1, 3, 2, 1]] 2 true =
      some (groupby [1, 2, 1, 3, 2, 1] true) :=
  ⟨(claim_C4_threading_invariance id [[1, 2, 1, 3, 2, 1]] 2 (by decide)
      (by decide)).1 ⟨[1, 0, 3], [[1, 4], [0, 2, 5], [3]], false⟩ rfl,
   (claim_C4_threading_invariance id [[1, 2, 1, 3, 2, 1]] 2 (by decide)
      (by decide)).2⟩

theorem claim_C5_multikey_equivalence_witness :
    ((GroupsIdx.mk [0, 1, 3] [[0, 2], [1], [3]] false).sameGroup 0 2 ↔
      compare_keys [[0, 0, 0, 1], [1, 2, 1, 1]] 0 2 = true) ∧
    ((GroupsIdx.mk [0, 1, 3] [[0, 2], [1], [3]] false).sameGroup 0 3 ↔
      compare_keys [[0, 0, 0, 1], [1, 2, 1, 1]] 0 3 = true) :=
  ⟨claim_C5_multikey_equivalence (fun _ : List (Option Nat) => 0)
     [[0, 0, 0, 1], [1, 2, 1, 1]] 2 false
     ⟨[0, 1, 3], [[0, 2], [1], [3]], false⟩ 0 2 (by decide) (by decide)
     (by decide) (by decide) rfl,
   claim_C5_multikey_equivalence (fun _ : List (Option Nat) => 0)
     [[0, 0, 0, 1], [1, 2, 1, 1]] 2 false
     ⟨[0, 1, 3], [[0, 2], [1], [3]], false⟩ 0 3 (by decide) (by decide)
     (by decide) (by decide) rfl⟩

theorem claim_C6_amended_witness :
    groupby_threaded_num2 id [[1, 2]] 3 false = none ∧
    groupby_threaded_multiple_keys_flat (fun _ => 0) ([[5]] : DFrame Nat) 3
      false = none :=
  ⟨claim_C6_amended.1 id [[1, 2]] 3 false (by decide),
   claim_C6_amended.2 (fun _ => 0) [[5]] 3 false (by decide) (by decide)
     (by decide) (by decide)⟩

theorem claim_C7_error_handling_witness :
    groupby_threaded_multiple_keys_flat (fun _ => 0)
        ([[1, 2], [1]] : DFrame Nat) 2 false =
      some (Except.error PolarsError.shapeMismatch) ∧
    (∃ g : GroupsProxy, groupby_threaded_multiple_keys_flat
        (fun _ : List (Option Nat) => 0)
        ([[0, 0, 0, 1], [1, 2, 1, 1]] : DFrame Nat) 2 false =
      some (Except.ok g)) ∧
    (∃ g : GroupsProxy,
      groupby_threaded_num2 id [[1, 2, 1, 3, 2, 1]] 2 false = some g) :=
  ⟨claim_C7_error_handling.1 (fun _ => 0) [[1, 2], [1]] 2 false (by decide),
   claim_C7_error_handling.2.1 (fun _ : List (Option Nat) => 0)
     [[0, 0, 0, 1], [1, 2, 1, 1]] 2 false (by decide) (by decide),
   claim_C7_error_handling.2.2 id [[1, 2, 1, 3, 2, 1]] 2 false (by decide)⟩

theorem claim_C8_population_routine_witness :
    populate_multiple_key_hashmap2 ([] : List (IdxHash × Nat)) 0 5
        ([] : DFrame Nat) (fun s : Nat => (7, s + 1))
        (fun v (s : Nat) => (v, s)) 0 = ([(⟨0, 5⟩, 7)], 1) ∧
    populate_multiple_key_hashmap ([] : List (IdxHash × Nat)) 0 5
        ([] : DFrame Nat) (fun s : Nat => (7, s + 1))
        (fun v (s : Nat) => (v, s)) 0 = ([(⟨0, 5⟩, 7)], 1) :=
  (claim_C8_population_routine ([] : List (IdxHash × Nat)) 0 5
      ([] : DFrame Nat) (fun s : Nat => (7, s + 1))
      (fun v (s : Nat) => (v, s)) 0).1
    (fun e he => absurd he (List.not_mem_nil e))

theorem claim_C9_sort_idempotent_witness :
    finish_group_order_vecs [([0, 2], [[0, 1], [2]])] true =
      some ⟨[0, 2], [[0, 1], [2]], true⟩ ∧
    finish_group_order_vecs [([0, 2], [[0, 1], [2]]), ([], [])] true =
      some ⟨[0, 2], [[0, 1], [2]], true⟩ :=
  claim_C9_sort_idempotent [0, 2] [[0, 1], [2]] (by decide) rfl

theorem claim_C10_zero_key_columns_witness :
    (compare_df_rows ([] : DFrame Nat) 0 1 = true ∧
      compare_keys ([] : List (Column Nat)) 0 1 = true) ∧
    (match mapO (fun t =>
        match foldChunksM (flatStepM ([] : DFrame Nat) t 2) MState.init 0
            [List.replicate 3 5] with
        | none => none
        | some s => some (s.firsts, s.alls)) (List.range 2) with
     | none => none
     | some v => finish_group_order_vecs v false) =
      some ⟨[0], [List.range 3], false⟩ :=
  ⟨claim_C10_zero_key_columns.1 0 1,
   claim_C10_zero_key_columns.2 3 5 2 false (by decide) (by decide)⟩

end PolarsGroupby
